import Mathlib

/-!
# Verification of the PIC readable-assembly translator

A shallow embedding of the translation core of the pic-rasm-language
repository (src/pic18_translator.py and src/pic18_reverse_translator.py),
together with theorems settling the specification claims about it.

The Python code is line-oriented string rewriting driven by one compiled
regular expression per direction, of the shape
  (?<!\w)(k1|k2|...)(?!\w)        with re.IGNORECASE,
whose alternatives are the table keys sorted by decreasing length.  The
embedding models strings as lists of characters and the regex substitution
as a left-to-right scanner that, at every position whose preceding
character is not a word character, tries the alternatives in order and
replaces the first one that matches case-insensitively and is followed by
a non-word character (or the end of the line); on success scanning resumes
right after the matched text, exactly as re.sub does.

Character-class predicates (word characters, whitespace, line breaks,
upper/lower case) are modelled with the ASCII semantics of the Python
originals; every string appearing in the tables and in the specification
examples is ASCII.  Python dictionaries are modelled as association lists
with Python's insertion-order/last-assignment-wins update semantics
(pyDictUpdate / pyDictMerge below).  The iteration order of the Python
set of mnemonics used by the reverse matcher is unspecified (hash order);
the embedding fixes one enumeration order, which is harmless because two
distinct alternatives of equal length can never match at the same
position (they would have to be case-insensitively equal).
-/

namespace PicRasm

set_option maxRecDepth 200000
set_option maxHeartbeats 3000000

/-- ASCII word character, Python regex \w restricted to ASCII:
letters, digits and the underscore. -/
def pyIsWordChar (c : Char) : Bool :=
  decide ((97 ≤ c.toNat ∧ c.toNat ≤ 122) ∨ (65 ≤ c.toNat ∧ c.toNat ≤ 90) ∨
    (48 ≤ c.toNat ∧ c.toNat ≤ 57) ∨ c.toNat = 95)

/-- ASCII letter. -/
def pyIsAlphaChar (c : Char) : Bool :=
  decide ((97 ≤ c.toNat ∧ c.toNat ≤ 122) ∨ (65 ≤ c.toNat ∧ c.toNat ≤ 90))

/-- The character set stripped by Python str.strip() / split() (whitespace).
ASCII part: tab, LF, VT, FF, CR, FS, GS, RS, US, space; plus the Unicode
space characters Python treats as whitespace. -/
def pyIsSpaceChar (c : Char) : Bool :=
  decide ((9 ≤ c.toNat ∧ c.toNat ≤ 13) ∨ (28 ≤ c.toNat ∧ c.toNat ≤ 32) ∨
    c.toNat = 0x85 ∨ c.toNat = 0xa0 ∨ c.toNat = 0x1680 ∨
    (0x2000 ≤ c.toNat ∧ c.toNat ≤ 0x200a) ∨ c.toNat = 0x2028 ∨
    c.toNat = 0x2029 ∨ c.toNat = 0x202f ∨ c.toNat = 0x205f ∨ c.toNat = 0x3000)

/-- The line-break characters of Python str.splitlines():
LF, VT, FF, CR, FS, GS, RS, NEL, LINE SEPARATOR, PARAGRAPH SEPARATOR. -/
def pyIsLineBreakChar (c : Char) : Bool :=
  decide ((10 ≤ c.toNat ∧ c.toNat ≤ 13) ∨ (28 ≤ c.toNat ∧ c.toNat ≤ 30) ∨
    c.toNat = 0x85 ∨ c.toNat = 0x2028 ∨ c.toNat = 0x2029)

/-- Python str.lower() on one character (ASCII). -/
def pyToLowerChar (c : Char) : Char :=
  if 65 ≤ c.toNat ∧ c.toNat ≤ 90 then Char.ofNat (c.toNat + 32) else c

/-- Python str.upper() on one character (ASCII). -/
def pyToUpperChar (c : Char) : Char :=
  if 97 ≤ c.toNat ∧ c.toNat ≤ 122 then Char.ofNat (c.toNat - 32) else c

/-- Code-point image of Python str.lower() (ASCII). -/
def lowerNat (n : Nat) : Nat := if 65 ≤ n ∧ n ≤ 90 then n + 32 else n

/-- Character equality through code points (equivalent to = on Char;
stated on Nat so that the kernel evaluates it fast). -/
def charEqNat (a b : Char) : Bool := a.toNat == b.toNat

/-- Pointwise character-list equality (equivalent to = on List Char). -/
def charListEq : List Char → List Char → Bool
  | [], [] => true
  | a :: as, b :: bs => charEqNat a b && charListEq as bs
  | _, _ => false

/-- String equality through code points (equivalent to = on String). -/
def strEq (a b : String) : Bool := charListEq a.data b.data

/-- Case-insensitive character comparison, as re.IGNORECASE performs it
on ASCII alternatives: the lower-case images of the code points agree. -/
def ciEqChar (a b : Char) : Bool := lowerNat a.toNat == lowerNat b.toNat

/-- Case-insensitive list comparison (same length, pointwise ciEqChar). -/
def ciListEq : List Char → List Char → Bool
  | [], [] => true
  | a :: as, b :: bs => ciEqChar a b && ciListEq as bs
  | _, _ => false

/-- The (?!\w) look-ahead: the rest of the text is empty or starts with a
non-word character. -/
def lookaheadOK : List Char → Bool
  | [] => true
  | c :: _ => ! pyIsWordChar c

/-- One alternative of the compiled pattern matches at the current
position: the key is non-empty, case-insensitively equal to the text
prefix of its length, and followed by a non-word character or the end. -/
def keyMatches (k text : List Char) : Bool :=
  ! k.isEmpty && ciListEq k (text.take k.length) && lookaheadOK (text.drop k.length)

/-- The regex engine tries the alternatives in order and commits to the
first that matches (backtracking over a failed look-ahead moves on to the
next alternative, which keyMatches already accounts for). -/
def findKey (keys : List (List Char)) (text : List Char) : Option (List Char) :=
  keys.find? (fun k => keyMatches k text)

/-- Left-to-right scanning loop of re.sub for the pattern
(?<!\w)(alts)(?!\w).  prevW records whether the character before the
current position in the original string is a word character (the (?<!\w)
look-behind).  When an alternative of length L matches, its replacement is
emitted and the L matched original characters are consumed without further
matching, after which scanning resumes (re.sub continues right after the
matched text); the consumption is spread over the skip counter so that the
recursion is structural and prevW always holds the word-character status
of the last consumed original character. -/
def substAux (keys : List (List Char)) (repl : List Char → List Char) :
    Nat → Bool → List Char → List Char
  | _, _, [] => []
  | n + 1, _, c :: cs => substAux keys repl n (pyIsWordChar c) cs
  | 0, prevW, c :: cs =>
    if prevW then c :: substAux keys repl 0 (pyIsWordChar c) cs
    else
      match findKey keys (c :: cs) with
      | some k =>
        repl ((c :: cs).take k.length) ++
          substAux keys repl (k.length - 1) (pyIsWordChar c) cs
      | none => c :: substAux keys repl 0 (pyIsWordChar c) cs

/-- Full substitution pass over one line: position 0 has no preceding
character, so the look-behind succeeds there. -/
def pySub (keys : List (List Char)) (repl : List Char → List Char)
    (text : List Char) : List Char :=
  substAux keys repl 0 false text

/-- The character set of Python str.rstrip("\n\r"). -/
def isNLChar (c : Char) : Bool := c = '\n' || c = '\r'

/-- Python str.rstrip("\n\r"): drop trailing LF/CR characters. -/
def pyRstripNL (l : List Char) : List Char :=
  (l.reverse.dropWhile isNLChar).reverse

/-- Python str.lstrip() (no argument): drop leading whitespace. -/
def pyLstrip (l : List Char) : List Char := l.dropWhile pyIsSpaceChar

/-- Python str.lstrip("."): drop leading dots. -/
def pyLstripDots (l : List Char) : List Char := l.dropWhile (fun c => c = '.')

/-- Python str.lower() on a list of characters. -/
def pyToLowerL (l : List Char) : List Char := l.map pyToLowerChar

/-- Python str.upper() on a list of characters. -/
def pyToUpperL (l : List Char) : List Char := l.map pyToUpperChar

theorem dropWhile_length_le (p : Char → Bool) (l : List Char) :
    (l.dropWhile p).length ≤ l.length := by
  induction l with
  | nil => simp
  | cons c cs ih =>
    by_cases h : p c = true
    · simp only [List.dropWhile, h]
      simpa using Nat.le_succ_of_le ih
    · simp only [List.dropWhile, Bool.not_eq_true] at h ⊢
      simp [h]

/-- Helper of pySplitWs: acc holds the current word reversed. -/
def pySplitWsAux : List Char → List Char → List (List Char)
  | [], acc => if acc.isEmpty then [] else [acc.reverse]
  | c :: cs, acc =>
    if pyIsSpaceChar c then
      if acc.isEmpty then pySplitWsAux cs [] else acc.reverse :: pySplitWsAux cs []
    else pySplitWsAux cs (c :: acc)

/-- Python str.split() (no argument): split on runs of whitespace,
discarding empty pieces. -/
def pySplitWs (l : List Char) : List (List Char) :=
  pySplitWsAux l []

/-- Core of Python str.splitlines(): acc holds the current line reversed;
"\r\n" counts as a single break; a final line is emitted only if the text
does not end with a line break (and an empty text yields no lines). -/
def splitlinesCore : List Char → List Char → List (List Char)
  | [], acc => if acc.isEmpty then [] else [acc.reverse]
  | [c], acc =>
    if pyIsLineBreakChar c then [acc.reverse] else [(c :: acc).reverse]
  | c :: d :: cs, acc =>
    if pyIsLineBreakChar c then
      if c = '\r' ∧ d = '\n' then acc.reverse :: splitlinesCore cs []
      else acc.reverse :: splitlinesCore (d :: cs) []
    else splitlinesCore (d :: cs) (c :: acc)

/-- Python str.splitlines() on a string. -/
def pySplitlines (s : String) : List String :=
  (splitlinesCore s.data []).map String.mk

/-- Python "\n".join(...) on a list of lines. -/
def joinNLCore : List (List Char) → List Char
  | [] => []
  | [l] => l
  | l :: ls => l ++ '\n' :: joinNLCore ls

/-- Python "\n".join(...) on strings. -/
def pyJoinNL (ls : List String) : String :=
  String.mk (joinNLCore (ls.map String.data))

/-- Lookup in an association list (unique keys after pyDictMerge, so the
first hit is the only hit, matching Python dict lookup). -/
def lookupStr (k : String) : List (String × String) → Option String
  | [] => none
  | (a, b) :: rest => if strEq a k then some b else lookupStr k rest

/-- Python dict assignment d[k] = v: overwrite in place if the key
exists, else append (insertion order preserved). -/
def pyDictUpdate (d : List (String × String)) (kv : String × String) :
    List (String × String) :=
  if d.any (fun p => strEq p.1 kv.1) then
    d.map (fun p => if strEq p.1 kv.1 then (p.1, kv.2) else p)
  else d ++ [kv]

/-- Python dict merge by unpacking, as in the source's
INSTRUCTION_MAP_ALL = \x7b**a, **b\x7d: entries of b are assigned into a
one after the other, a later namespace silently overriding an earlier
one on a key collision.  There is no failure path. -/
def pyDictMerge (a b : List (String × String)) : List (String × String) :=
  b.foldl pyDictUpdate a

/-- Keys of a dictionary, in order. -/
def pyKeys (d : List (String × String)) : List String := d.map Prod.fst

/-- Stable insertion (descending by precomputed length): the element goes
in front of the first entry that is not longer, so earlier elements keep
precedence among equal lengths, as Python's stable
sorted(key=len, reverse=True). -/
def insertByLenDesc (x : Nat × String) : List (Nat × String) → List (Nat × String)
  | [] => [x]
  | y :: ys =>
    if y.1 ≤ x.1 then x :: y :: ys else y :: insertByLenDesc x ys

/-- Python sorted(keys, key=len, reverse=True) (stable; like Python, the
sort key len is computed once per element). -/
def pySortLenDesc (l : List String) : List String :=
  ((l.map (fun s => (s.length, s))).foldr insertByLenDesc []).map Prod.snd
/-- PIC18 English readable name to standard mnemonic (src/pic18_translator.py, INSTRUCTION_MAP). -/
def INSTRUCTION_MAP : List (String × String) := [
  ("add_w_to_f", "ADDWF"),
  ("add_w_to_f_with_carry", "ADDWFC"),
  ("and_w_with_f", "ANDWF"),
  ("clear_f", "CLRF"),
  ("complement_f", "COMF"),
  ("compare_f_skip_if_equal", "CPFSEQ"),
  ("compare_f_skip_if_greater", "CPFSGT"),
  ("compare_f_skip_if_less", "CPFSLT"),
  ("decrement_f", "DECF"),
  ("decrement_f_skip_if_zero", "DECFSZ"),
  ("decrement_f_skip_if_not_zero", "DCFSNZ"),
  ("increment_f", "INCF"),
  ("increment_f_skip_if_zero", "INCFSZ"),
  ("increment_f_skip_if_not_zero", "INFSNZ"),
  ("or_w_with_f", "IORWF"),
  ("move_f", "MOVF"),
  ("move_f_to_f", "MOVFF"),
  ("move_w_to_f", "MOVWF"),
  ("multiply_w_with_f", "MULWF"),
  ("negate_f", "NEGF"),
  ("rotate_left_f_through_carry", "RLCF"),
  ("rotate_left_f_no_carry", "RLNCF"),
  ("rotate_right_f_through_carry", "RRCF"),
  ("rotate_right_f_no_carry", "RRNCF"),
  ("set_f", "SETF"),
  ("subtract_f_from_w_with_borrow", "SUBFWB"),
  ("subtract_w_from_f", "SUBWF"),
  ("subtract_w_from_f_with_borrow", "SUBWFB"),
  ("swap_nibbles_f", "SWAPF"),
  ("test_f_skip_if_zero", "TSTFSZ"),
  ("xor_w_with_f", "XORWF"),
  ("bit_clear_f", "BCF"),
  ("bit_set_f", "BSF"),
  ("bit_test_f_skip_if_clear", "BTFSC"),
  ("bit_test_f_skip_if_set", "BTFSS"),
  ("bit_toggle_f", "BTG"),
  ("add_literal_to_w", "ADDLW"),
  ("and_literal_with_w", "ANDLW"),
  ("or_literal_with_w", "IORLW"),
  ("move_literal_to_bsr", "MOVLB"),
  ("move_literal_to_w", "MOVLW"),
  ("multiply_literal_with_w", "MULLW"),
  ("subtract_w_from_literal", "SUBLW"),
  ("xor_literal_with_w", "XORLW"),
  ("branch_if_carry", "BC"),
  ("branch_if_negative", "BN"),
  ("branch_if_not_carry", "BNC"),
  ("branch_if_not_negative", "BNN"),
  ("branch_if_not_overflow", "BNOV"),
  ("branch_if_not_zero", "BNZ"),
  ("branch_if_overflow", "BOV"),
  ("branch_always", "BRA"),
  ("branch_if_zero", "BZ"),
  ("call_subroutine", "CALL"),
  ("clear_watchdog_timer", "CLRWDT"),
  ("decimal_adjust_w", "DAW"),
  ("goto_address", "GOTO"),
  ("no_operation", "NOP"),
  ("pop_return_stack", "POP"),
  ("push_return_stack", "PUSH"),
  ("relative_call", "RCALL"),
  ("software_reset", "RESET"),
  ("return_from_interrupt", "RETFIE"),
  ("return_with_literal_in_w", "RETLW"),
  ("return_from_subroutine", "RETURN"),
  ("enter_sleep_mode", "SLEEP"),
  ("table_read", "TBLRD*"),
  ("table_read_post_increment", "TBLRD*+"),
  ("table_read_post_decrement", "TBLRD*-"),
  ("table_read_pre_increment", "TBLRD+*"),
  ("table_write", "TBLWT*"),
  ("table_write_post_increment", "TBLWT*+"),
  ("table_write_post_decrement", "TBLWT*-"),
  ("table_write_pre_increment", "TBLWT+*"),
  ("add_literal_to_fsr", "ADDFSR"),
  ("add_literal_to_fsr2_and_return", "ADDULNK"),
  ("call_subroutine_using_w", "CALLW"),
  ("move_indexed_to_f", "MOVSF"),
  ("move_indexed_to_indexed", "MOVSS"),
  ("push_literal", "PUSHL"),
  ("subtract_literal_from_fsr", "SUBFSR"),
  ("subtract_literal_from_fsr2_and_return", "SUBULNK")
]

/-- PIC16-only English readable names (src/pic18_translator.py, INSTRUCTION_MAP_PIC16). -/
def INSTRUCTION_MAP_PIC16 : List (String × String) := [
  ("clear_w", "CLRW"),
  ("rotate_left_f", "RLF"),
  ("rotate_right_f", "RRF"),
  ("option_load", "OPTION"),
  ("load_tris", "TRIS"),
  ("add_w_to_f_with_carry_16", "ADDWFC"),
  ("subtract_w_from_f_with_borrow_16", "SUBWFB"),
  ("logical_shift_left_f", "LSLF"),
  ("logical_shift_right_f", "LSRF"),
  ("arithmetic_shift_right_f", "ASRF"),
  ("branch_relative", "BRA"),
  ("branch_relative_with_w", "BRW"),
  ("call_subroutine_with_w", "CALLW"),
  ("add_literal_to_fsr_16", "ADDFSR"),
  ("move_indirect_from_fsr", "MOVIW"),
  ("move_w_indirect_to_fsr", "MOVWI"),
  ("move_literal_to_bsr_16", "MOVLB"),
  ("move_literal_to_pclath", "MOVLP"),
  ("software_reset_16", "RESET")
]

/-- PIC16-only Slovenian readable names (src/pic18_translator.py, INSTRUCTION_MAP_PIC16_SI). -/
def INSTRUCTION_MAP_PIC16_SI : List (String × String) := [
  ("pocisti_w", "CLRW"),
  ("zavrti_levo_f", "RLF"),
  ("zavrti_desno_f", "RRF"),
  ("nalozi_opcijo", "OPTION"),
  ("nalozi_tris", "TRIS"),
  ("pristej_w_k_f_s_prenosom_16", "ADDWFC"),
  ("odstej_w_od_f_z_izposojo_16", "SUBWFB"),
  ("logicni_pomik_levo_f", "LSLF"),
  ("logicni_pomik_desno_f", "LSRF"),
  ("aritmeticni_pomik_desno_f", "ASRF"),
  ("vejitev_relativna", "BRA"),
  ("vejitev_relativna_z_w", "BRW"),
  ("klici_podprogram_z_w_16", "CALLW"),
  ("pristej_konstanto_k_fsr_16", "ADDFSR"),
  ("premakni_posredno_iz_fsr", "MOVIW"),
  ("premakni_w_posredno_v_fsr", "MOVWI"),
  ("premakni_konstanto_v_bsr_16", "MOVLB"),
  ("premakni_konstanto_v_pclath", "MOVLP"),
  ("programska_ponastavitev_16", "RESET")
]

/-- PIC18 Slovenian readable names (src/pic18_translator.py, INSTRUCTION_MAP_SI). -/
def INSTRUCTION_MAP_SI : List (String × String) := [
  ("pristej_w_k_f", "ADDWF"),
  ("pristej_w_k_f_s_prenosom", "ADDWFC"),
  ("in_w_z_f", "ANDWF"),
  ("pocisti_f", "CLRF"),
  ("komplementiraj_f", "COMF"),
  ("primerjaj_f_preskoci_ce_enako", "CPFSEQ"),
  ("primerjaj_f_preskoci_ce_vecje", "CPFSGT"),
  ("primerjaj_f_preskoci_ce_manjse", "CPFSLT"),
  ("zmanjsaj_f", "DECF"),
  ("zmanjsaj_f_preskoci_ce_nic", "DECFSZ"),
  ("zmanjsaj_f_preskoci_ce_ni_nic", "DCFSNZ"),
  ("povecaj_f", "INCF"),
  ("povecaj_f_preskoci_ce_nic", "INCFSZ"),
  ("povecaj_f_preskoci_ce_ni_nic", "INFSNZ"),
  ("ali_w_z_f", "IORWF"),
  ("premakni_f", "MOVF"),
  ("premakni_f_v_f", "MOVFF"),
  ("premakni_w_v_f", "MOVWF"),
  ("pomnozi_w_z_f", "MULWF"),
  ("negiraj_f", "NEGF"),
  ("zavrti_levo_f_skozi_prenos", "RLCF"),
  ("zavrti_levo_f_brez_prenosa", "RLNCF"),
  ("zavrti_desno_f_skozi_prenos", "RRCF"),
  ("zavrti_desno_f_brez_prenosa", "RRNCF"),
  ("nastavi_f", "SETF"),
  ("odstej_f_od_w_z_izposojo", "SUBFWB"),
  ("odstej_w_od_f", "SUBWF"),
  ("odstej_w_od_f_z_izposojo", "SUBWFB"),
  ("zamenjaj_polbajta_f", "SWAPF"),
  ("testiraj_f_preskoci_ce_nic", "TSTFSZ"),
  ("xali_w_z_f", "XORWF"),
  ("bit_pocisti_f", "BCF"),
  ("bit_nastavi_f", "BSF"),
  ("bit_testiraj_f_preskoci_ce_pociscen", "BTFSC"),
  ("bit_testiraj_f_preskoci_ce_nastavljen", "BTFSS"),
  ("bit_preklopi_f", "BTG"),
  ("pristej_konstanto_k_w", "ADDLW"),
  ("in_konstanto_z_w", "ANDLW"),
  ("ali_konstanto_z_w", "IORLW"),
  ("premakni_konstanto_v_bsr", "MOVLB"),
  ("premakni_konstanto_v_w", "MOVLW"),
  ("pomnozi_konstanto_z_w", "MULLW"),
  ("odstej_w_od_konstante", "SUBLW"),
  ("xali_konstanto_z_w", "XORLW"),
  ("vejitev_ce_prenos", "BC"),
  ("vejitev_ce_negativno", "BN"),
  ("vejitev_ce_ni_prenosa", "BNC"),
  ("vejitev_ce_ni_negativno", "BNN"),
  ("vejitev_ce_ni_prekoracitve", "BNOV"),
  ("vejitev_ce_ni_nic", "BNZ"),
  ("vejitev_ce_prekoracitev", "BOV"),
  ("vejitev_vedno", "BRA"),
  ("vejitev_ce_nic", "BZ"),
  ("klici_podprogram", "CALL"),
  ("pocisti_casovnik_psa", "CLRWDT"),
  ("decimalno_prilagodi_w", "DAW"),
  ("pojdi_na_naslov", "GOTO"),
  ("brez_operacije", "NOP"),
  ("odvzemi_iz_sklada", "POP"),
  ("potisni_na_sklad", "PUSH"),
  ("relativni_klic", "RCALL"),
  ("programska_ponastavitev", "RESET"),
  ("vrni_se_iz_prekinitve", "RETFIE"),
  ("vrni_se_s_konstanto_v_w", "RETLW"),
  ("vrni_se_iz_podprograma", "RETURN"),
  ("vstopi_v_spanje", "SLEEP"),
  ("beri_tabelo", "TBLRD*"),
  ("beri_tabelo_povecaj_po", "TBLRD*+"),
  ("beri_tabelo_zmanjsaj_po", "TBLRD*-"),
  ("beri_tabelo_povecaj_pred", "TBLRD+*"),
  ("pisi_tabelo", "TBLWT*"),
  ("pisi_tabelo_povecaj_po", "TBLWT*+"),
  ("pisi_tabelo_zmanjsaj_po", "TBLWT*-"),
  ("pisi_tabelo_povecaj_pred", "TBLWT+*"),
  ("pristej_konstanto_k_fsr", "ADDFSR"),
  ("pristej_konstanto_k_fsr2_in_vrni", "ADDULNK"),
  ("klici_podprogram_z_w", "CALLW"),
  ("premakni_indeksirano_v_f", "MOVSF"),
  ("premakni_indeksirano_v_indeksirano", "MOVSS"),
  ("potisni_konstanto", "PUSHL"),
  ("odstej_konstanto_od_fsr", "SUBFSR"),
  ("odstej_konstanto_od_fsr2_in_vrni", "SUBULNK")
]

/-- Standard PIC18 mnemonic to English readable name (src/pic18_reverse_translator.py, REVERSE_MAP_EN). -/
def REVERSE_MAP_EN : List (String × String) := [
  ("ADDWF", "add_w_to_f"),
  ("ADDWFC", "add_w_to_f_with_carry"),
  ("ANDWF", "and_w_with_f"),
  ("CLRF", "clear_f"),
  ("COMF", "complement_f"),
  ("CPFSEQ", "compare_f_skip_if_equal"),
  ("CPFSGT", "compare_f_skip_if_greater"),
  ("CPFSLT", "compare_f_skip_if_less"),
  ("DECF", "decrement_f"),
  ("DECFSZ", "decrement_f_skip_if_zero"),
  ("DCFSNZ", "decrement_f_skip_if_not_zero"),
  ("INCF", "increment_f"),
  ("INCFSZ", "increment_f_skip_if_zero"),
  ("INFSNZ", "increment_f_skip_if_not_zero"),
  ("IORWF", "or_w_with_f"),
  ("MOVF", "move_f"),
  ("MOVFF", "move_f_to_f"),
  ("MOVWF", "move_w_to_f"),
  ("MULWF", "multiply_w_with_f"),
  ("NEGF", "negate_f"),
  ("RLCF", "rotate_left_f_through_carry"),
  ("RLNCF", "rotate_left_f_no_carry"),
  ("RRCF", "rotate_right_f_through_carry"),
  ("RRNCF", "rotate_right_f_no_carry"),
  ("SETF", "set_f"),
  ("SUBFWB", "subtract_f_from_w_with_borrow"),
  ("SUBWF", "subtract_w_from_f"),
  ("SUBWFB", "subtract_w_from_f_with_borrow"),
  ("SWAPF", "swap_nibbles_f"),
  ("TSTFSZ", "test_f_skip_if_zero"),
  ("XORWF", "xor_w_with_f"),
  ("BCF", "bit_clear_f"),
  ("BSF", "bit_set_f"),
  ("BTFSC", "bit_test_f_skip_if_clear"),
  ("BTFSS", "bit_test_f_skip_if_set"),
  ("BTG", "bit_toggle_f"),
  ("ADDLW", "add_literal_to_w"),
  ("ANDLW", "and_literal_with_w"),
  ("IORLW", "or_literal_with_w"),
  ("MOVLB", "move_literal_to_bsr"),
  ("MOVLW", "move_literal_to_w"),
  ("MULLW", "multiply_literal_with_w"),
  ("SUBLW", "subtract_w_from_literal"),
  ("XORLW", "xor_literal_with_w"),
  ("BC", "branch_if_carry"),
  ("BN", "branch_if_negative"),
  ("BNC", "branch_if_not_carry"),
  ("BNN", "branch_if_not_negative"),
  ("BNOV", "branch_if_not_overflow"),
  ("BNZ", "branch_if_not_zero"),
  ("BOV", "branch_if_overflow"),
  ("BRA", "branch_always"),
  ("BZ", "branch_if_zero"),
  ("CALL", "call_subroutine"),
  ("CLRWDT", "clear_watchdog_timer"),
  ("DAW", "decimal_adjust_w"),
  ("GOTO", "goto_address"),
  ("NOP", "no_operation"),
  ("POP", "pop_return_stack"),
  ("PUSH", "push_return_stack"),
  ("RCALL", "relative_call"),
  ("RESET", "software_reset"),
  ("RETFIE", "return_from_interrupt"),
  ("RETLW", "return_with_literal_in_w"),
  ("RETURN", "return_from_subroutine"),
  ("SLEEP", "enter_sleep_mode"),
  ("TBLRD*", "table_read"),
  ("TBLRD*+", "table_read_post_increment"),
  ("TBLRD*-", "table_read_post_decrement"),
  ("TBLRD+*", "table_read_pre_increment"),
  ("TBLWT*", "table_write"),
  ("TBLWT*+", "table_write_post_increment"),
  ("TBLWT*-", "table_write_post_decrement"),
  ("TBLWT+*", "table_write_pre_increment"),
  ("ADDFSR", "add_literal_to_fsr"),
  ("ADDULNK", "add_literal_to_fsr2_and_return"),
  ("CALLW", "call_subroutine_using_w"),
  ("MOVSF", "move_indexed_to_f"),
  ("MOVSS", "move_indexed_to_indexed"),
  ("PUSHL", "push_literal"),
  ("SUBFSR", "subtract_literal_from_fsr"),
  ("SUBULNK", "subtract_literal_from_fsr2_and_return")
]

/-- PIC16-only mnemonic to English readable name (src/pic18_reverse_translator.py, REVERSE_MAP_PIC16_EN). -/
def REVERSE_MAP_PIC16_EN : List (String × String) := [
  ("CLRW", "clear_w"),
  ("RLF", "rotate_left_f"),
  ("RRF", "rotate_right_f"),
  ("OPTION", "option_load"),
  ("TRIS", "load_tris"),
  ("LSLF", "logical_shift_left_f"),
  ("LSRF", "logical_shift_right_f"),
  ("ASRF", "arithmetic_shift_right_f"),
  ("BRW", "branch_relative_with_w"),
  ("MOVIW", "move_indirect_from_fsr"),
  ("MOVWI", "move_w_indirect_to_fsr"),
  ("MOVLP", "move_literal_to_pclath")
]

/-- Standard PIC18 mnemonic to Slovenian readable name (src/pic18_reverse_translator.py, REVERSE_MAP_SI). -/
def REVERSE_MAP_SI : List (String × String) := [
  ("ADDWF", "pristej_w_k_f"),
  ("ADDWFC", "pristej_w_k_f_s_prenosom"),
  ("ANDWF", "in_w_z_f"),
  ("CLRF", "pocisti_f"),
  ("COMF", "komplementiraj_f"),
  ("CPFSEQ", "primerjaj_f_preskoci_ce_enako"),
  ("CPFSGT", "primerjaj_f_preskoci_ce_vecje"),
  ("CPFSLT", "primerjaj_f_preskoci_ce_manjse"),
  ("DECF", "zmanjsaj_f"),
  ("DECFSZ", "zmanjsaj_f_preskoci_ce_nic"),
  ("DCFSNZ", "zmanjsaj_f_preskoci_ce_ni_nic"),
  ("INCF", "povecaj_f"),
  ("INCFSZ", "povecaj_f_preskoci_ce_nic"),
  ("INFSNZ", "povecaj_f_preskoci_ce_ni_nic"),
  ("IORWF", "ali_w_z_f"),
  ("MOVF", "premakni_f"),
  ("MOVFF", "premakni_f_v_f"),
  ("MOVWF", "premakni_w_v_f"),
  ("MULWF", "pomnozi_w_z_f"),
  ("NEGF", "negiraj_f"),
  ("RLCF", "zavrti_levo_f_skozi_prenos"),
  ("RLNCF", "zavrti_levo_f_brez_prenosa"),
  ("RRCF", "zavrti_desno_f_skozi_prenos"),
  ("RRNCF", "zavrti_desno_f_brez_prenosa"),
  ("SETF", "nastavi_f"),
  ("SUBFWB", "odstej_f_od_w_z_izposojo"),
  ("SUBWF", "odstej_w_od_f"),
  ("SUBWFB", "odstej_w_od_f_z_izposojo"),
  ("SWAPF", "zamenjaj_polbajta_f"),
  ("TSTFSZ", "testiraj_f_preskoci_ce_nic"),
  ("XORWF", "xali_w_z_f"),
  ("BCF", "bit_pocisti_f"),
  ("BSF", "bit_nastavi_f"),
  ("BTFSC", "bit_testiraj_f_preskoci_ce_pociscen"),
  ("BTFSS", "bit_testiraj_f_preskoci_ce_nastavljen"),
  ("BTG", "bit_preklopi_f"),
  ("ADDLW", "pristej_konstanto_k_w"),
  ("ANDLW", "in_konstanto_z_w"),
  ("IORLW", "ali_konstanto_z_w"),
  ("MOVLB", "premakni_konstanto_v_bsr"),
  ("MOVLW", "premakni_konstanto_v_w"),
  ("MULLW", "pomnozi_konstanto_z_w"),
  ("SUBLW", "odstej_w_od_konstante"),
  ("XORLW", "xali_konstanto_z_w"),
  ("BC", "vejitev_ce_prenos"),
  ("BN", "vejitev_ce_negativno"),
  ("BNC", "vejitev_ce_ni_prenosa"),
  ("BNN", "vejitev_ce_ni_negativno"),
  ("BNOV", "vejitev_ce_ni_prekoracitve"),
  ("BNZ", "vejitev_ce_ni_nic"),
  ("BOV", "vejitev_ce_prekoracitev"),
  ("BRA", "vejitev_vedno"),
  ("BZ", "vejitev_ce_nic"),
  ("CALL", "klici_podprogram"),
  ("CLRWDT", "pocisti_casovnik_psa"),
  ("DAW", "decimalno_prilagodi_w"),
  ("GOTO", "pojdi_na_naslov"),
  ("NOP", "brez_operacije"),
  ("POP", "odvzemi_iz_sklada"),
  ("PUSH", "potisni_na_sklad"),
  ("RCALL", "relativni_klic"),
  ("RESET", "programska_ponastavitev"),
  ("RETFIE", "vrni_se_iz_prekinitve"),
  ("RETLW", "vrni_se_s_konstanto_v_w"),
  ("RETURN", "vrni_se_iz_podprograma"),
  ("SLEEP", "vstopi_v_spanje"),
  ("TBLRD*", "beri_tabelo"),
  ("TBLRD*+", "beri_tabelo_povecaj_po"),
  ("TBLRD*-", "beri_tabelo_zmanjsaj_po"),
  ("TBLRD+*", "beri_tabelo_povecaj_pred"),
  ("TBLWT*", "pisi_tabelo"),
  ("TBLWT*+", "pisi_tabelo_povecaj_po"),
  ("TBLWT*-", "pisi_tabelo_zmanjsaj_po"),
  ("TBLWT+*", "pisi_tabelo_povecaj_pred"),
  ("ADDFSR", "pristej_konstanto_k_fsr"),
  ("ADDULNK", "pristej_konstanto_k_fsr2_in_vrni"),
  ("CALLW", "klici_podprogram_z_w"),
  ("MOVSF", "premakni_indeksirano_v_f"),
  ("MOVSS", "premakni_indeksirano_v_indeksirano"),
  ("PUSHL", "potisni_konstanto"),
  ("SUBFSR", "odstej_konstanto_od_fsr"),
  ("SUBULNK", "odstej_konstanto_od_fsr2_in_vrni")
]

/-- PIC16-only mnemonic to Slovenian readable name (src/pic18_reverse_translator.py, REVERSE_MAP_PIC16_SI). -/
def REVERSE_MAP_PIC16_SI : List (String × String) := [
  ("CLRW", "pocisti_w"),
  ("RLF", "zavrti_levo_f"),
  ("RRF", "zavrti_desno_f"),
  ("OPTION", "nalozi_opcijo"),
  ("TRIS", "nalozi_tris"),
  ("LSLF", "logicni_pomik_levo_f"),
  ("LSRF", "logicni_pomik_desno_f"),
  ("ASRF", "aritmeticni_pomik_desno_f"),
  ("BRW", "vejitev_relativna_z_w"),
  ("MOVIW", "premakni_posredno_iz_fsr"),
  ("MOVWI", "premakni_w_posredno_v_fsr"),
  ("MOVLP", "premakni_konstanto_v_pclath")
]

/-- Assembler directives and pseudo-ops that the reverse translator passes through
unchanged (src/pic18_reverse_translator.py, _DIRECTIVES; a Python set, modelled as a list). -/
def _DIRECTIVES : List String := [
  "LIST",
  "INCLUDE",
  "#INCLUDE",
  "CONFIG",
  "ORG",
  "EQU",
  "SET",
  "CONSTANT",
  "VARIABLE",
  "CBLOCK",
  "ENDC",
  "DB",
  "DW",
  "DE",
  "DT",
  "DATA",
  "RES",
  "FILL",
  "IF",
  "ELSE",
  "ENDIF",
  "IFDEF",
  "IFNDEF",
  "WHILE",
  "ENDW",
  "MACRO",
  "ENDM",
  "LOCAL",
  "EXITM",
  "EXPAND",
  "NOEXPAND",
  "MESSG",
  "ERROR",
  "ERRORLEVEL",
  "PAGE",
  "TITLE",
  "SUBTITLE",
  "SPACE",
  "NOLIST",
  "RADIX",
  "PROCESSOR",
  "END",
  "BANKSEL",
  "BANKISEL",
  "PAGESEL",
  "__CONFIG",
  "__IDLOCS",
  "__BADRAM",
  "__MAXRAM"
]

/-- Merged forward map of all readable names (PIC18 EN/SI + PIC16 EN/SI),
src/pic18_translator.py lines 299-304.  The source builds it by dict
unpacking, i.e. pyDictMerge; because the four key sets are pairwise
disjoint that construction appends the entries in order, so the map is
defined here as the concatenation, and the theorem
INSTRUCTION_MAP_ALL_eq_pyDictMerge below proves it equal to the faithful
pyDictMerge construction. -/
def INSTRUCTION_MAP_ALL : List (String × String) :=
  INSTRUCTION_MAP ++ INSTRUCTION_MAP_SI ++ INSTRUCTION_MAP_PIC16 ++
    INSTRUCTION_MAP_PIC16_SI

/-- The alternatives of the forward matcher _MNEMONIC_RE: all readable
names sorted by decreasing length (src/pic18_translator.py, _SORTED_KEYS). -/
def _SORTED_KEYS : List String := pySortLenDesc (pyKeys INSTRUCTION_MAP_ALL)

/-- The forward alternatives as character lists. -/
def _SORTED_KEYS_L : List (List Char) := _SORTED_KEYS.map String.data

/-- Replacement of the forward translator: the matched text, lowercased,
looked up in the merged map (the lookup always succeeds because the match
is case-insensitively one of the keys and every key is lower-case; the
fallback is therefore unreachable). -/
def forwardRepl (m : List Char) : List Char :=
  match lookupStr (String.mk (pyToLowerL m)) INSTRUCTION_MAP_ALL with
  | some v => v.data
  | none => m

/-- Merged English reverse map (src/pic18_reverse_translator.py line 333,
dict unpacking of REVERSE_MAP_EN and REVERSE_MAP_PIC16_EN); the two key
sets are disjoint, so the merge appends — proved equal to the faithful
pyDictMerge construction by REVERSE_MAP_ALL_EN_eq_pyDictMerge below. -/
def REVERSE_MAP_ALL_EN : List (String × String) :=
  REVERSE_MAP_EN ++ REVERSE_MAP_PIC16_EN

/-- Merged Slovenian reverse map (src/pic18_reverse_translator.py
line 331), analogously. -/
def REVERSE_MAP_ALL_SI : List (String × String) :=
  REVERSE_MAP_SI ++ REVERSE_MAP_PIC16_SI

/-- The alternatives of the reverse matcher _STD_MNEMONIC_RE: the union
of the PIC18 and PIC16 English mnemonic sets, sorted by decreasing length
(src/pic18_reverse_translator.py, _build_reverse_regex; the set iteration
order among equal lengths is unspecified in Python and semantically
irrelevant here). -/
def _ALL_MNEMONICS : List String :=
  pySortLenDesc (pyKeys REVERSE_MAP_ALL_EN)

/-- The reverse alternatives as character lists. -/
def _ALL_MNEMONICS_L : List (List Char) := _ALL_MNEMONICS.map String.data

/-- Replacement of the reverse translator: rev_map.get(matched.upper(),
matched) — unrecognised matches fall back to the matched text itself. -/
def reverseRepl (rev_map : List (String × String)) (m : List Char) : List Char :=
  match lookupStr (String.mk (pyToUpperL m)) rev_map with
  | some v => v.data
  | none => m

/-- True iff the stripped line is empty or whitespace-only
(stripped.strip() == ""). -/
def isBlankLine (l : List Char) : Bool := l.all pyIsSpaceChar

/-- True iff the line starts with the comment marker after leading
whitespace (stripped.lstrip().startswith(";")). -/
def isCommentLine (l : List Char) : Bool :=
  match pyLstrip l with
  | c :: _ => c == ';'
  | [] => false

/-- translate_line of src/pic18_translator.py (lines 319-343): strip
trailing newline characters, pass blank and comment-only lines through,
otherwise replace every whole-token occurrence of a readable name by its
standard mnemonic.  Note: the function performs no directive check; its
docstring claims one. -/
def translate_line (line : String) : String :=
  let stripped := pyRstripNL line.data
  if isBlankLine stripped || isCommentLine stripped then String.mk stripped
  else String.mk (pySub _SORTED_KEYS_L forwardRepl stripped)

/-- translate of src/pic18_translator.py (lines 346-348):
"\n".join(translate_line(line) for line in source.splitlines()). -/
def translate (source : String) : String :=
  pyJoinNL ((pySplitlines source).map translate_line)

/-- True iff the token ends with a colon (a label). -/
def isLabelTok (t : List Char) : Bool :=
  match t.reverse with
  | ':' :: _ => true
  | _ => false

/-- True iff the raw token starts with the preprocessor marker. -/
def startsHash (t : List Char) : Bool :=
  match t with
  | '#' :: _ => true
  | _ => false

/-- The directive test of reverse_translate_line: the first token that is
not a label is compared, uppercased and with leading dots stripped,
against the directive set, and checked for a leading hash. -/
def isDirectiveLine (l : List Char) : Bool :=
  match (pySplitWs l).find? (fun t => ! isLabelTok t) with
  | some tok =>
    _DIRECTIVES.any (fun d => strEq d (String.mk (pyLstripDots (pyToUpperL tok)))) ||
      startsHash tok
  | none => false

/-- reverse_translate_line of src/pic18_reverse_translator.py (lines
294-320): strip trailing newline characters; pass blank, comment-only and
directive/preprocessor lines through; otherwise replace every
whole-token occurrence of a standard mnemonic by the readable name of the
given reverse map.  There is no assignment-syntax rewrite: MOVLW, MOVWF
and MOVFF are substituted generically like every other mnemonic. -/
def reverse_translate_line (line : String) (rev_map : List (String × String)) : String :=
  let stripped := pyRstripNL line.data
  if isBlankLine stripped || isCommentLine stripped then String.mk stripped
  else if isDirectiveLine stripped then String.mk stripped
  else String.mk (pySub _ALL_MNEMONICS_L (reverseRepl rev_map) stripped)

/-- The merged reverse map selected by the lang argument
(src/pic18_reverse_translator.py lines 330-333): exactly the string "si"
selects Slovenian, every other value selects English. -/
def revMapFor (lang : String) : List (String × String) :=
  if lang = "si" then REVERSE_MAP_ALL_SI else REVERSE_MAP_ALL_EN

/-- reverse_translate of src/pic18_reverse_translator.py (lines 323-336). -/
def reverse_translate (source : String) (lang : String := "en") : String :=
  pyJoinNL ((pySplitlines source).map
    (fun l => reverse_translate_line l (revMapFor lang)))


/-- The dict-unpacking construction of INSTRUCTION_MAP_ALL in the source
coincides with the concatenation of the four namespaces: no readable name
occurs twice, so no entry is overridden or dropped by the merge. -/
theorem INSTRUCTION_MAP_ALL_eq_pyDictMerge :
    pyDictMerge (pyDictMerge (pyDictMerge INSTRUCTION_MAP INSTRUCTION_MAP_SI)
      INSTRUCTION_MAP_PIC16) INSTRUCTION_MAP_PIC16_SI = INSTRUCTION_MAP_ALL := by
  decide

/-- The dict-unpacking construction of the merged English reverse map
coincides with the concatenation of the two mnemonic namespaces. -/
theorem REVERSE_MAP_ALL_EN_eq_pyDictMerge :
    pyDictMerge REVERSE_MAP_EN REVERSE_MAP_PIC16_EN = REVERSE_MAP_ALL_EN := by
  decide

/-- The dict-unpacking construction of the merged Slovenian reverse map
coincides with the concatenation of the two mnemonic namespaces. -/
theorem REVERSE_MAP_ALL_SI_eq_pyDictMerge :
    pyDictMerge REVERSE_MAP_SI REVERSE_MAP_PIC16_SI = REVERSE_MAP_ALL_SI := by
  decide

/-! ## Basic character-level lemmas -/

theorem char_eq_of_toNat_eq {a b : Char} (h : a.toNat = b.toNat) : a = b :=
  Char.eq_of_val_eq (UInt32.eq_of_toBitVec_eq (BitVec.eq_of_toNat_eq h))

theorem charEqNat_iff {a b : Char} : charEqNat a b = true ↔ a = b := by
  unfold charEqNat
  constructor
  · intro h
    exact char_eq_of_toNat_eq (by simpa using h)
  · intro h
    subst h
    simp

theorem charListEq_iff : ∀ {as bs : List Char}, charListEq as bs = true ↔ as = bs
  | [], [] => by simp [charListEq]
  | [], _ :: _ => by simp [charListEq]
  | _ :: _, [] => by simp [charListEq]
  | a :: as, b :: bs => by
    simp only [charListEq, Bool.and_eq_true, charEqNat_iff, List.cons.injEq]
    exact and_congr_right (fun _ => charListEq_iff)

theorem strEq_iff {a b : String} : strEq a b = true ↔ a = b := by
  unfold strEq
  rw [charListEq_iff]
  constructor
  · intro h
    cases a; cases b; cases h; rfl
  · intro h; cases h; rfl

theorem ciEqChar_lowerNat {a b : Char} (h : ciEqChar a b = true) :
    lowerNat a.toNat = lowerNat b.toNat := by
  simpa [ciEqChar] using h

theorem ciEqChar_refl (a : Char) : ciEqChar a a = true := by simp [ciEqChar]

/-- The lower-case image determines word-character status. -/
theorem ciEqChar_word {a b : Char} (h : ciEqChar a b = true) :
    pyIsWordChar a = pyIsWordChar b := by
  have h2 := ciEqChar_lowerNat h
  unfold lowerNat at h2
  unfold pyIsWordChar
  rw [decide_eq_decide]
  split_ifs at h2 <;> omega

/-- The lower-case image determines letter status. -/
theorem ciEqChar_alpha {a b : Char} (h : ciEqChar a b = true) :
    pyIsAlphaChar a = pyIsAlphaChar b := by
  have h2 := ciEqChar_lowerNat h
  unfold lowerNat at h2
  unfold pyIsAlphaChar
  rw [decide_eq_decide]
  split_ifs at h2 <;> omega

/-- A character that is not an upper-case letter and is ci-equal to
another non-upper-case character is equal to it (case-insensitivity only
identifies the two cases of a letter). -/
theorem ciEqChar_eq_of_not_upper {a b : Char}
    (ha : ¬ (65 ≤ a.toNat ∧ a.toNat ≤ 90)) (hb : ¬ (65 ≤ b.toNat ∧ b.toNat ≤ 90))
    (h : ciEqChar a b = true) : a = b := by
  have h2 := ciEqChar_lowerNat h
  unfold lowerNat at h2
  rw [if_neg ha, if_neg hb] at h2
  exact char_eq_of_toNat_eq h2

/-- A non-letter ci-equal to a non-upper-case character equals it. -/
theorem ciEqChar_eq_of_not_alpha {a b : Char}
    (ha : ¬ (65 ≤ a.toNat ∧ a.toNat ≤ 90)) (hb : pyIsAlphaChar b = false)
    (h : ciEqChar a b = true) : a = b := by
  have hb2 : ¬ (65 ≤ b.toNat ∧ b.toNat ≤ 90) := by
    unfold pyIsAlphaChar at hb
    simp only [decide_eq_false_iff_not] at hb
    omega
  exact ciEqChar_eq_of_not_upper ha hb2 h

theorem pyToLowerChar_toNat (c : Char) :
    (pyToLowerChar c).toNat = lowerNat c.toNat := by
  unfold pyToLowerChar lowerNat
  split_ifs with h
  · have hv : (c.toNat + 32).isValidChar := by
      have := c.val.toBitVec.isLt
      left
      have : c.toNat < 4294967296 := by
        simpa [Char.toNat, UInt32.toNat] using this
      omega
    have hv2 : (c.val.toBitVec.toNat + 32).isValidChar := hv
    simp [Char.ofNat, hv2, Char.ofNatAux, Char.toNat, UInt32.toNat, BitVec.toNat_ofNatLt]
  · rfl

/-! ## Equations of the substitution scanner -/

theorem ciListEq_length : ∀ {as bs : List Char}, ciListEq as bs = true →
    as.length = bs.length
  | [], [], _ => rfl
  | [], _ :: _, h => by simp [ciListEq] at h
  | _ :: _, [], h => by simp [ciListEq] at h
  | _ :: as, _ :: bs, h => by
    simp only [ciListEq, Bool.and_eq_true] at h
    simp [ciListEq_length h.2]

theorem ciListEq_append : ∀ (as bs cs ds : List Char), as.length = cs.length →
    (ciListEq (as ++ bs) (cs ++ ds) = (ciListEq as cs && ciListEq bs ds))
  | [], _, [], _, _ => by simp [ciListEq]
  | a :: as, bs, c :: cs, ds, h => by
    simp only [List.length_cons, Nat.succ.injEq] at h
    have ih := ciListEq_append as bs cs ds h
    rw [List.cons_append, List.cons_append]
    show (ciEqChar a c && ciListEq (as ++ bs) (cs ++ ds)) =
      ((ciEqChar a c && ciListEq as cs) && ciListEq bs ds)
    rw [ih, Bool.and_assoc]

theorem keyMatches_elim {k text : List Char} (h : keyMatches k text = true) :
    k ≠ [] ∧ ciListEq k (text.take k.length) = true ∧
      lookaheadOK (text.drop k.length) = true ∧ k.length ≤ text.length := by
  unfold keyMatches at h
  simp only [Bool.and_eq_true, Bool.not_eq_true'] at h
  obtain ⟨⟨h1, h2⟩, h3⟩ := h
  have hne : k ≠ [] := by simpa [List.isEmpty_iff] using h1
  have hlen : k.length ≤ text.length := by
    have := ciListEq_length h2
    simp only [List.length_take] at this
    omega
  exact ⟨hne, h2, h3, hlen⟩

theorem keyMatches_intro {k text : List Char} (h1 : k ≠ [])
    (h2 : ciListEq k (text.take k.length) = true)
    (h3 : lookaheadOK (text.drop k.length) = true) : keyMatches k text = true := by
  unfold keyMatches
  simp only [Bool.and_eq_true, Bool.not_eq_true']
  exact ⟨⟨by simpa [List.isEmpty_iff] using h1, h2⟩, h3⟩

theorem findKey_some {keys : List (List Char)} {text k : List Char}
    (h : findKey keys text = some k) :
    k ∈ keys ∧ keyMatches k text = true :=
  ⟨List.mem_of_find?_eq_some h, by simpa using List.find?_some h⟩

theorem findKey_none {keys : List (List Char)} {text : List Char}
    (h : findKey keys text = none) :
    ∀ k ∈ keys, keyMatches k text = false := by
  intro k hk
  have := List.find?_eq_none.mp h k hk
  simpa using this

theorem findKey_none_of {keys : List (List Char)} {text : List Char}
    (h : ∀ k ∈ keys, keyMatches k text = false) :
    findKey keys text = none := by
  apply List.find?_eq_none.mpr
  intro k hk
  simp [h k hk]

/-- The word-character status of the character before the scanning
position, as a function of the consumed prefix (p is the status at the
start of that prefix). -/
def lastW : List Char → Bool → Bool
  | [], p => p
  | c :: v, _ => lastW v (pyIsWordChar c)

theorem substAux_nil (keys : List (List Char)) (repl : List Char → List Char)
    (n : Nat) (p : Bool) : substAux keys repl n p [] = [] := by
  cases n <;> rfl

theorem substAux_skip (keys : List (List Char)) (repl : List Char → List Char)
    (n : Nat) (p : Bool) (c : Char) (cs : List Char) :
    substAux keys repl (n + 1) p (c :: cs) =
      substAux keys repl n (pyIsWordChar c) cs := rfl

theorem substAux_prevW (keys : List (List Char)) (repl : List Char → List Char)
    (c : Char) (cs : List Char) :
    substAux keys repl 0 true (c :: cs) =
      c :: substAux keys repl 0 (pyIsWordChar c) cs := rfl

theorem substAux_zero (keys : List (List Char)) (repl : List Char → List Char)
    (c : Char) (cs : List Char) :
    substAux keys repl 0 false (c :: cs) =
      (match findKey keys (c :: cs) with
       | some k =>
         repl ((c :: cs).take k.length) ++
           substAux keys repl (k.length - 1) (pyIsWordChar c) cs
       | none => c :: substAux keys repl 0 (pyIsWordChar c) cs) := rfl

theorem substAux_none (keys : List (List Char)) (repl : List Char → List Char)
    {c : Char} {cs : List Char} (h : findKey keys (c :: cs) = none) :
    substAux keys repl 0 false (c :: cs) =
      c :: substAux keys repl 0 (pyIsWordChar c) cs := by
  rw [substAux_zero, h]

theorem substAux_some (keys : List (List Char)) (repl : List Char → List Char)
    {c : Char} {cs : List Char} {k : List Char}
    (h : findKey keys (c :: cs) = some k) :
    substAux keys repl 0 false (c :: cs) =
      repl ((c :: cs).take k.length) ++
        substAux keys repl (k.length - 1) (pyIsWordChar c) cs := by
  rw [substAux_zero, h]

/-- Consuming a prefix through the skip counter leaves the scanner at the
rest with the word status of the last consumed character. -/
theorem substAux_skip_all (keys : List (List Char)) (repl : List Char → List Char) :
    ∀ (v : List Char) (p : Bool) (rest : List Char),
      substAux keys repl v.length p (v ++ rest) =
        substAux keys repl 0 (lastW v p) rest
  | [], p, rest => rfl
  | c :: v, p, rest => by
    simp only [List.length_cons, List.cons_append]
    rw [substAux_skip]
    exact substAux_skip_all keys repl v (pyIsWordChar c) rest

/-- The one-step equation of the scanner at a match, in terms of the
matched text and the remaining text. -/
theorem substAux_match (keys : List (List Char)) (repl : List Char → List Char)
    {c : Char} {cs : List Char} {k : List Char}
    (h : findKey keys (c :: cs) = some k) :
    substAux keys repl 0 false (c :: cs) =
      repl ((c :: cs).take k.length) ++
        substAux keys repl 0 (lastW ((c :: cs).take k.length) false)
          ((c :: cs).drop k.length) := by
  obtain ⟨-, hm⟩ := findKey_some h
  obtain ⟨hne, -, -, hlen⟩ := keyMatches_elim hm
  rw [substAux_some keys repl h]
  obtain ⟨a, k0, rfl⟩ := List.exists_cons_of_ne_nil hne
  congr 1
  have hlen2 : k0.length ≤ cs.length := by
    simpa using hlen
  have htk : (c :: cs).take (a :: k0).length = c :: cs.take k0.length := by
    simp
  have hdk : (c :: cs).drop (a :: k0).length = cs.drop k0.length := by
    simp
  rw [htk, hdk]
  have hv : cs.take k0.length ++ cs.drop k0.length = cs := List.take_append_drop _ _
  have hvl : (cs.take k0.length).length = k0.length := by
    simp [List.length_take]
    omega
  calc substAux keys repl (a :: k0).length.pred (pyIsWordChar c) cs
      = substAux keys repl (cs.take k0.length).length (pyIsWordChar c)
          (cs.take k0.length ++ cs.drop k0.length) := by
        rw [hv, hvl]
        rfl
    _ = substAux keys repl 0 (lastW (cs.take k0.length) (pyIsWordChar c))
          (cs.drop k0.length) := substAux_skip_all keys repl _ _ _
    _ = substAux keys repl 0 (lastW (c :: cs.take k0.length) false)
          (cs.drop k0.length) := rfl

/-! ## Word/letter facts and the first-match decomposition -/

theorem alpha_word {c : Char} (h : pyIsAlphaChar c = true) :
    pyIsWordChar c = true := by
  unfold pyIsAlphaChar at h
  unfold pyIsWordChar
  simp only [decide_eq_true_eq] at h ⊢
  omega

theorem ciEqChar_underscore {z : Char} (h : ciEqChar '_' z = true) : z = '_' := by
  have h2 := ciEqChar_lowerNat h
  have h3 : ('_' : Char).toNat = 95 := rfl
  rw [h3] at h2
  unfold lowerNat at h2
  rw [if_neg (by omega)] at h2
  split_ifs at h2 with h4
  · omega
  · exact (char_eq_of_toNat_eq h2.symm)

/-- Scanning a non-word head copies it whatever the look-behind says,
provided every alternative starts with a letter. -/
theorem substAux_nonword_head (keys : List (List Char)) (repl : List Char → List Char)
    (HK2 : ∀ k ∈ keys, ∃ a t, k = a :: t ∧ pyIsAlphaChar a = true)
    {c : Char} {cs : List Char} (hc : pyIsWordChar c = false) (p : Bool) :
    substAux keys repl 0 p (c :: cs) =
      c :: substAux keys repl 0 (pyIsWordChar c) cs := by
  cases p
  · refine substAux_none keys repl (findKey_none_of ?_)
    intro k hk
    obtain ⟨a, t, rfl, ha⟩ := HK2 k hk
    by_contra hkm
    rw [Bool.not_eq_false] at hkm
    obtain ⟨-, h2, -, -⟩ := keyMatches_elim hkm
    rw [List.length_cons, List.take_succ_cons] at h2
    simp only [ciListEq, Bool.and_eq_true] at h2
    have hac := ciEqChar_alpha h2.1
    rw [ha] at hac
    rw [alpha_word hac.symm] at hc
    exact Bool.true_eq_false.mp hc
  · exact substAux_prevW keys repl c cs

/-- First-match decomposition of one scanning pass: either nothing is
replaced, or the text splits into an untouched prefix u, a matched text m,
and a remainder; the character before the match (if any) is not a word
character, and the output is the prefix, the replacement and the scan of
the remainder. -/
theorem substAux_decomp (keys : List (List Char)) (repl : List Char → List Char) :
    ∀ (text : List Char) (p : Bool),
      substAux keys repl 0 p text = text ∨
      ∃ u m rest k, text = u ++ (m ++ rest) ∧ k ∈ keys ∧
        keyMatches k (m ++ rest) = true ∧ m.length = k.length ∧
        ((u = [] ∧ p = false) ∨ ∃ u0 x, u = u0 ++ [x] ∧ pyIsWordChar x = false) ∧
        substAux keys repl 0 p text =
          u ++ (repl m ++ substAux keys repl 0 (lastW m false) rest) := by
  intro text
  induction text with
  | nil => intro p; left; exact substAux_nil keys repl 0 p
  | cons c cs ih =>
    intro p
    have hcons : ∀ (hpw : substAux keys repl 0 p (c :: cs) =
        c :: substAux keys repl 0 (pyIsWordChar c) cs),
        substAux keys repl 0 p (c :: cs) = c :: cs ∨
        ∃ u m rest k, c :: cs = u ++ (m ++ rest) ∧ k ∈ keys ∧
          keyMatches k (m ++ rest) = true ∧ m.length = k.length ∧
          ((u = [] ∧ p = false) ∨ ∃ u0 x, u = u0 ++ [x] ∧ pyIsWordChar x = false) ∧
          substAux keys repl 0 p (c :: cs) =
            u ++ (repl m ++ substAux keys repl 0 (lastW m false) rest) := by
      intro hpw
      rcases ih (pyIsWordChar c) with h | ⟨u, m, rest, k, he, hk, hkm, hlen, hb, ho⟩
      · left; rw [hpw, h]
      · right
        refine ⟨c :: u, m, rest, k, by simp [he], hk, hkm, hlen, ?_, by simp [hpw, ho]⟩
        rcases hb with ⟨rfl, hpc⟩ | ⟨u0, x, rfl, hx⟩
        · exact Or.inr ⟨[], c, by simp, hpc⟩
        · exact Or.inr ⟨c :: u0, x, by simp, hx⟩
    cases p
    · cases hf : findKey keys (c :: cs) with
      | some k =>
        right
        obtain ⟨hkmem, hkm⟩ := findKey_some hf
        obtain ⟨hne, hci, hla, hlen⟩ := keyMatches_elim hkm
        refine ⟨[], (c :: cs).take k.length, (c :: cs).drop k.length, k,
          by simp [List.take_append_drop], hkmem, ?_, ?_, Or.inl ⟨rfl, rfl⟩, ?_⟩
        · rw [List.take_append_drop]; exact hkm
        · simp only [List.length_take]
          simp only [List.length_cons] at hlen ⊢
          omega
        · simpa using substAux_match keys repl hf
      | none => exact hcons (substAux_none keys repl hf)
    · exact hcons (substAux_prevW keys repl c cs)

theorem lookaheadOK_nil : lookaheadOK [] = true := rfl

theorem lookaheadOK_cons (c : Char) (l : List Char) :
    lookaheadOK (c :: l) = ! pyIsWordChar c := rfl

/-- If no alternative matches at a position, none matches there after the
rest of the line has been rewritten: replacements begin with a letter and
are preceded by the non-word character that licensed their match, so they
can neither extend nor enable a match at an earlier position. -/
theorem findKey_none_sub (keys : List (List Char)) (repl : List Char → List Char)
    (HK1 : ∀ k ∈ keys, ∀ ch ∈ k, pyIsWordChar ch = true)
    (HRa : ∀ m k, k ∈ keys → ciListEq k m = true →
      ∃ a t, repl m = a :: t ∧ pyIsAlphaChar a = true)
    {c : Char} {cs : List Char} (h : findKey keys (c :: cs) = none) :
    findKey keys (c :: substAux keys repl 0 (pyIsWordChar c) cs) = none := by
  rcases substAux_decomp keys repl cs (pyIsWordChar c) with
    hd | ⟨u, m, rest, k1, he, hk1, hkm1, hlen1, hb, ho⟩
  · rw [hd]; exact h
  · rw [ho]
    obtain ⟨hne1, hci1, hla1, hlenle1⟩ := keyMatches_elim hkm1
    have htm : (m ++ rest).take k1.length = m := by
      rw [← hlen1]
      exact List.take_left m rest
    rw [htm] at hci1
    obtain ⟨a, t, hB, ha⟩ := HRa m k1 hk1 hci1
    apply findKey_none_of
    intro k hk
    by_contra hkmC
    rw [Bool.not_eq_false] at hkmC
    have hsh : c :: (u ++ (repl m ++ substAux keys repl 0 (lastW m false) rest)) =
        (c :: u) ++ (repl m ++ substAux keys repl 0 (lastW m false) rest) := rfl
    rw [hsh] at hkmC
    obtain ⟨hne, hci, hla, hlenle⟩ := keyMatches_elim hkmC
    by_cases hcase : k.length ≤ (c :: u).length
    · rw [List.take_append_of_le_length hcase] at hci
      by_cases heq : k.length = (c :: u).length
      · have hdrop :
            ((c :: u) ++ (repl m ++ substAux keys repl 0 (lastW m false) rest)).drop
              k.length = repl m ++ substAux keys repl 0 (lastW m false) rest := by
          rw [heq]
          exact List.drop_left _ _
        rw [hdrop, hB] at hla
        rw [List.cons_append, lookaheadOK_cons, alpha_word ha] at hla
        exact Bool.noConfusion hla
      · have hlt : k.length < (c :: u).length := lt_of_le_of_ne hcase heq
        have hdne : (c :: u).drop k.length ≠ [] := by
          intro hnil
          have := congrArg List.length hnil
          simp only [List.length_drop, List.length_nil] at this
          omega
        obtain ⟨d, D, hdD⟩ := List.exists_cons_of_ne_nil hdne
        have hkmO : keyMatches k (c :: cs) = true := by
          have he2 : c :: cs = (c :: u) ++ (m ++ rest) := by simp [he]
          rw [he2]
          apply keyMatches_intro hne
          · rw [List.take_append_of_le_length hcase]
            exact hci
          · rw [List.drop_append_of_le_length hcase, hdD, List.cons_append,
              lookaheadOK_cons]
            rw [List.drop_append_of_le_length hcase, hdD, List.cons_append,
              lookaheadOK_cons] at hla
            exact hla
        rw [findKey_none h k hk] at hkmO
        exact Bool.noConfusion hkmO
    · push_neg at hcase
      obtain ⟨A0, x, hAx, hwx⟩ :
          ∃ A0 x, c :: u = A0 ++ [x] ∧ pyIsWordChar x = false := by
        rcases hb with ⟨rfl, hpc⟩ | ⟨u0, x, rfl, hx⟩
        · exact ⟨[], c, rfl, hpc⟩
        · exact ⟨c :: u0, x, by simp, hx⟩
      rw [hAx] at hci hcase
      have hA0 : A0.length + 1 ≤ k.length := by
        have hc2 := hcase
        simp only [List.length_append, List.length_singleton] at hc2
        omega
      rw [List.take_append_eq_append_take,
        List.take_of_length_le (Nat.le_of_lt hcase)] at hci
      have hksplit : k = k.take A0.length ++ k.drop A0.length :=
        (List.take_append_drop _ _).symm
      rw [hksplit, List.append_assoc A0] at hci
      rw [ciListEq_append _ _ _ _ (by simp only [List.length_take]; omega)] at hci
      simp only [Bool.and_eq_true] at hci
      have hdk : k.drop A0.length ≠ [] := by
        intro hnil
        have := congrArg List.length hnil
        simp only [List.length_drop, List.length_nil] at this
        omega
      obtain ⟨kx, K1, hkx⟩ := List.exists_cons_of_ne_nil hdk
      have hkxmem : kx ∈ k := by
        have : kx ∈ k.drop A0.length := by rw [hkx]; exact List.mem_cons_self kx K1
        exact List.drop_subset _ _ this
      have hhead : ciEqChar kx x = true := by
        rw [hkx] at hci
        have h2 := hci.2
        rw [List.singleton_append] at h2
        simp only [ciListEq, Bool.and_eq_true] at h2
        exact h2.1
      have := ciEqChar_word hhead
      rw [HK1 k hk kx hkxmem, hwx] at this
      exact Bool.noConfusion this

/-- A text whose characters are all non-letters is left unchanged by the
scanner: every alternative starts with a letter. -/
theorem substAux_inert_nonalpha (keys : List (List Char)) (repl : List Char → List Char)
    (HK2 : ∀ k ∈ keys, ∃ a t, k = a :: t ∧ pyIsAlphaChar a = true) :
    ∀ (l : List Char) (p : Bool), (∀ ch ∈ l, pyIsAlphaChar ch = false) →
      substAux keys repl 0 p l = l := by
  intro l
  induction l with
  | nil => intro p _; exact substAux_nil keys repl 0 p
  | cons c cs ih =>
    intro p hl
    have hnone : ∀ k ∈ keys, keyMatches k (c :: cs) = false := by
      intro k hk
      obtain ⟨a, t, rfl, ha⟩ := HK2 k hk
      by_contra hkm
      rw [Bool.not_eq_false] at hkm
      obtain ⟨-, h2, -, -⟩ := keyMatches_elim hkm
      rw [List.length_cons, List.take_succ_cons] at h2
      simp only [ciListEq, Bool.and_eq_true] at h2
      have hac := ciEqChar_alpha h2.1
      rw [ha, hl c (List.mem_cons_self c cs)] at hac
      exact Bool.noConfusion hac
    have hstep : substAux keys repl 0 p (c :: cs) =
        c :: substAux keys repl 0 (pyIsWordChar c) cs := by
      cases p
      · exact substAux_none keys repl (findKey_none_of hnone)
      · exact substAux_prevW keys repl c cs
    rw [hstep, ih (pyIsWordChar c) (fun ch hch => hl ch (List.mem_cons_of_mem c hch))]

/-- A replacement block passes through a second scan unchanged: the
alternatives all contain an underscore while the block does not, the
block is followed by a non-word character (or nothing), and word
characters cannot match across the non-word boundary. -/
theorem substAux_passthrough (keys : List (List Char)) (repl : List Char → List Char)
    (HK1 : ∀ k ∈ keys, ∀ ch ∈ k, pyIsWordChar ch = true)
    (HKu : ∀ k ∈ keys, '_' ∈ k) :
    ∀ (M : List Char) (p : Bool) (t : List Char),
      (∀ ch ∈ M, ch ≠ '_') →
      (t = [] ∨ ∃ d D, t = d :: D ∧ pyIsWordChar d = false) →
      substAux keys repl 0 p (M ++ t) = M ++ substAux keys repl 0 (lastW M p) t := by
  intro M
  induction M with
  | nil => intro p t _ _; rfl
  | cons a M1 ih =>
    intro p t hM ht
    have hnone : ∀ k ∈ keys, keyMatches k ((a :: M1) ++ t) = false := by
      intro k hk
      by_contra hkm
      rw [Bool.not_eq_false] at hkm
      obtain ⟨hne, hci, hla, hlenle⟩ := keyMatches_elim hkm
      obtain ⟨k0, k1, hk01⟩ := List.append_of_mem (HKu k hk)
      have hk0len : k0.length + 1 ≤ k.length := by
        have := congrArg List.length hk01
        simp only [List.length_append, List.length_cons] at this
        omega
      by_cases hkM : k.length ≤ (a :: M1).length
      · rw [List.take_append_of_le_length hkM] at hci
        have hXlen : ((a :: M1).take k.length).length = k.length := by
          simp only [List.length_take]
          omega
        have hci2 : ciListEq (k0 ++ '_' :: k1)
            (((a :: M1).take k.length).take k0.length ++
              ((a :: M1).take k.length).drop k0.length) = true := by
          rw [List.take_append_drop, ← hk01]
          exact hci
        rw [ciListEq_append _ _ _ _
          (by simp only [List.length_take, hXlen]; omega)] at hci2
        simp only [Bool.and_eq_true] at hci2
        have hdne : ((a :: M1).take k.length).drop k0.length ≠ [] := by
          intro hnil
          have := congrArg List.length hnil
          simp only [List.length_drop, hXlen, List.length_nil] at this
          omega
        obtain ⟨z, Z, hzZ⟩ := List.exists_cons_of_ne_nil hdne
        have hz : z = '_' := by
          have h2 := hci2.2
          rw [hzZ] at h2
          simp only [ciListEq, Bool.and_eq_true] at h2
          exact ciEqChar_underscore h2.1
        have hzmem : z ∈ a :: M1 := by
          have h1 : z ∈ ((a :: M1).take k.length).drop k0.length := by
            rw [hzZ]; exact List.mem_cons_self z Z
          exact List.take_subset _ _ (List.drop_subset _ _ h1)
        rw [hz] at hzmem
        exact hM '_' hzmem rfl
      · push_neg at hkM
        obtain ⟨d, D, rfl, hwd⟩ : ∃ d D, t = d :: D ∧ pyIsWordChar d = false := by
          rcases ht with rfl | h
          · exfalso
            rw [List.append_nil] at hlenle
            omega
          · exact h
        rw [List.take_append_eq_append_take,
          List.take_of_length_le (Nat.le_of_lt hkM)] at hci
        have hci2 : ciListEq
            (k.take (a :: M1).length ++ k.drop (a :: M1).length)
            ((a :: M1) ++ (d :: D).take (k.length - (a :: M1).length)) = true := by
          rw [List.take_append_drop]
          exact hci
        rw [ciListEq_append _ _ _ _
          (by simp only [List.length_take]; omega)] at hci2
        simp only [Bool.and_eq_true] at hci2
        have hdk : k.drop (a :: M1).length ≠ [] := by
          intro hnil
          have := congrArg List.length hnil
          simp only [List.length_drop, List.length_nil] at this
          omega
        obtain ⟨kx, K1, hkx⟩ := List.exists_cons_of_ne_nil hdk
        have hkxmem : kx ∈ k := by
          have h1 : kx ∈ k.drop (a :: M1).length := by
            rw [hkx]; exact List.mem_cons_self kx K1
          exact List.drop_subset _ _ h1
        have htake : (d :: D).take (k.length - (a :: M1).length) =
            d :: D.take (k.length - (a :: M1).length - 1) := by
          obtain ⟨j, hj⟩ : ∃ j, k.length - (a :: M1).length = j + 1 :=
            ⟨k.length - (a :: M1).length - 1, by omega⟩
          rw [hj, List.take_succ_cons]
          simp
        have h2 := hci2.2
        rw [hkx, htake] at h2
        simp only [ciListEq, Bool.and_eq_true] at h2
        have := ciEqChar_word h2.1
        rw [HK1 k hk kx hkxmem, hwd] at this
        exact Bool.noConfusion this
    have hstep : substAux keys repl 0 p ((a :: M1) ++ t) =
        a :: substAux keys repl 0 (pyIsWordChar a) (M1 ++ t) := by
      cases p
      · exact substAux_none keys repl (findKey_none_of hnone)
      · exact substAux_prevW keys repl a (M1 ++ t)
    rw [hstep, ih (pyIsWordChar a) t
      (fun ch hch => hM ch (List.mem_cons_of_mem a hch)) ht]
    rfl

/-- One scanning pass is idempotent: replacements contain no underscore
while every alternative does, replacements start with a letter, and every
replaced region is delimited by non-word context, so a second pass finds
nothing to replace.  Stated with an explicit length bound for the
induction. -/
theorem substAux_idem (keys : List (List Char)) (repl : List Char → List Char)
    (HK1 : ∀ k ∈ keys, ∀ ch ∈ k, pyIsWordChar ch = true)
    (HK2 : ∀ k ∈ keys, ∃ a t, k = a :: t ∧ pyIsAlphaChar a = true)
    (HKu : ∀ k ∈ keys, '_' ∈ k)
    (HRa : ∀ m k, k ∈ keys → ciListEq k m = true →
      ∃ a t, repl m = a :: t ∧ pyIsAlphaChar a = true)
    (HRu : ∀ m k, k ∈ keys → ciListEq k m = true → ∀ ch ∈ repl m, ch ≠ '_') :
    ∀ (n : Nat) (text : List Char), text.length ≤ n → ∀ p,
      substAux keys repl 0 p (substAux keys repl 0 p text) =
        substAux keys repl 0 p text := by
  intro n
  induction n with
  | zero =>
    intro text hlen p
    have : text = [] := List.eq_nil_of_length_eq_zero (Nat.le_zero.mp hlen)
    subst this
    rfl
  | succ n ih =>
    intro text hlen p
    cases text with
    | nil => rfl
    | cons c cs =>
      have hcs : cs.length ≤ n := by
        simp only [List.length_cons] at hlen
        omega
      cases p with
      | true =>
        rw [substAux_prevW, substAux_prevW]
        rw [ih cs hcs (pyIsWordChar c)]
      | false =>
        cases hf : findKey keys (c :: cs) with
        | none =>
          rw [substAux_none keys repl hf]
          have hfn2 := findKey_none_sub keys repl HK1
            (fun m k hk hci => HRa m k hk hci) hf
          rw [substAux_none keys repl hfn2]
          rw [ih cs hcs (pyIsWordChar c)]
        | some k =>
          rw [substAux_match keys repl hf]
          obtain ⟨hkmem, hkm⟩ := findKey_some hf
          obtain ⟨hne, hci, hla, hlenle⟩ := keyMatches_elim hkm
          have hBu : ∀ ch ∈ repl ((c :: cs).take k.length), ch ≠ '_' :=
            HRu _ k hkmem hci
          cases hr : (c :: cs).drop k.length with
          | nil =>
            rw [substAux_nil, List.append_nil]
            conv_lhs => rw [← List.append_nil (repl (List.take k.length (c :: cs)))]
            rw [substAux_passthrough keys repl HK1 HKu _ false [] hBu (Or.inl rfl)]
            rw [substAux_nil, List.append_nil]
          | cons r R =>
            have hwr : pyIsWordChar r = false := by
              rw [hr, lookaheadOK_cons] at hla
              simpa using hla
            have hR : R.length ≤ n := by
              have hd := congrArg List.length hr
              simp only [List.length_drop, List.length_cons] at hd
              have hk1 : 1 ≤ k.length := by
                cases k with
                | nil => exact absurd rfl hne
                | cons a t => simp
              omega
            rw [substAux_nonword_head keys repl HK2 hwr]
            rw [substAux_passthrough keys repl HK1 HKu _ false
              (r :: substAux keys repl 0 (pyIsWordChar r) R) hBu
              (Or.inr ⟨r, substAux keys repl 0 (pyIsWordChar r) R, rfl, hwr⟩)]
            rw [substAux_nonword_head keys repl HK2 hwr]
            rw [ih R hR (pyIsWordChar r)]

/-! ## Token-level machinery -/

theorem ciListEq_refl : ∀ (l : List Char), ciListEq l l = true
  | [] => rfl
  | c :: cs => by simp only [ciListEq, ciEqChar_refl, Bool.true_and, ciListEq_refl cs]

theorem lastW_eq_getLastD (p : Bool) : ∀ (l : List Char), l ≠ [] →
    lastW l p = pyIsWordChar (l.getLastD 'A')
  | [], h => absurd rfl h
  | [c], _ => rfl
  | c :: d :: l, _ => by
    have := lastW_eq_getLastD (pyIsWordChar c) (d :: l) (by simp)
    simp only [lastW] at this ⊢
    rw [this]
    rfl

theorem mem_insertByLenDesc {x y : Nat × String} : ∀ {l : List (Nat × String)},
    x ∈ insertByLenDesc y l ↔ x = y ∨ x ∈ l
  | [] => by simp [insertByLenDesc]
  | z :: zs => by
    unfold insertByLenDesc
    split_ifs with h
    · simp
    · rw [List.mem_cons, mem_insertByLenDesc (l := zs), List.mem_cons]
      tauto

theorem mem_foldr_insert {x : Nat × String} : ∀ {l : List (Nat × String)},
    x ∈ l.foldr insertByLenDesc [] ↔ x ∈ l
  | [] => by simp
  | y :: ys => by
    simp only [List.foldr_cons, mem_insertByLenDesc, List.mem_cons]
    rw [mem_foldr_insert (l := ys)]

theorem mem_pySortLenDesc {s : String} {l : List String} :
    s ∈ pySortLenDesc l ↔ s ∈ l := by
  unfold pySortLenDesc
  simp only [List.mem_map]
  constructor
  · rintro ⟨p, hp, rfl⟩
    rw [mem_foldr_insert] at hp
    obtain ⟨t, ht, rfl⟩ := List.mem_map.mp hp
    exact ht
  · intro hs
    exact ⟨(s.length, s), mem_foldr_insert.mpr (List.mem_map.mpr ⟨s, hs, rfl⟩), rfl⟩

theorem lookupStr_mem {k v : String} : ∀ {d : List (String × String)},
    lookupStr k d = some v → (k, v) ∈ d
  | [], h => by simp [lookupStr] at h
  | (a, b) :: rest, h => by
    unfold lookupStr at h
    split_ifs at h with ha
    · obtain rfl : b = v := by simpa using h
      have : a = k := strEq_iff.mp ha
      subst this
      exact List.mem_cons_self _ _
    · exact List.mem_cons_of_mem _ (lookupStr_mem h)

theorem lookupStr_of_mem_keys {k : String} : ∀ {d : List (String × String)},
    k ∈ pyKeys d → ∃ v, lookupStr k d = some v
  | [], h => by simp [pyKeys] at h
  | (a, b) :: rest, h => by
    unfold lookupStr
    split_ifs with ha
    · exact ⟨b, rfl⟩
    · apply lookupStr_of_mem_keys (d := rest)
      simp only [pyKeys, List.map_cons, List.mem_cons] at h
      rcases h with rfl | h
      · exact absurd (strEq_iff.mpr rfl) ha
      · exact h

/-- In a list sorted by non-increasing length, if r occurs and satisfies
the predicate, and every other element satisfying it is r itself or
strictly shorter, then the first hit is r. -/
theorem find_first_of_sorted {p : List Char → Bool} :
    ∀ {l : List (List Char)},
      List.Pairwise (fun a b : List Char => b.length ≤ a.length) l →
      ∀ {r : List Char}, r ∈ l → p r = true →
      (∀ k ∈ l, p k = true → k = r ∨ k.length < r.length) →
      l.find? p = some r
  | [], _, r, hr, _, _ => by simp at hr
  | x :: xs, hs, r, hr, hpr, hother => by
    rw [List.find?_cons]
    cases hpx : p x with
    | true =>
      rcases hother x (List.mem_cons_self x xs) hpx with rfl | hxlt
      · rfl
      · exfalso
        rcases List.mem_cons.mp hr with rfl | hrxs
        · exact Nat.lt_irrefl _ hxlt
        · have := (List.pairwise_cons.mp hs).1 r hrxs
          omega
    | false =>
      have hrxs : r ∈ xs := by
        rcases List.mem_cons.mp hr with rfl | h
        · rw [hpr] at hpx; exact Bool.noConfusion hpx
        · exact h
      exact find_first_of_sorted (List.pairwise_cons.mp hs).2 hrxs hpr
        (fun k hk hpk => hother k (List.mem_cons_of_mem x hk) hpk)

/-- Scanning a line that begins with a whole occurrence of the
alternative r replaces exactly that occurrence first: every alternative
that also matches there is r itself or shorter, and the alternatives are
sorted by non-increasing length, so the regex engine commits to r. -/
theorem pySub_token (keys : List (List Char)) (repl : List Char → List Char)
    (hs : List.Pairwise (fun a b : List Char => b.length ≤ a.length) keys)
    {r ops : List Char} (hr : r ∈ keys)
    (hmatch : keyMatches r (r ++ ops) = true)
    (hother : ∀ k ∈ keys, keyMatches k (r ++ ops) = true →
      k = r ∨ k.length < r.length) :
    pySub keys repl (r ++ ops) =
      repl r ++ substAux keys repl 0 (lastW r false) ops := by
  have hfind : findKey keys (r ++ ops) = some r :=
    find_first_of_sorted hs hr hmatch hother
  obtain ⟨hne, -, -, -⟩ := keyMatches_elim hmatch
  obtain ⟨c, r1, rfl⟩ := List.exists_cons_of_ne_nil hne
  unfold pySub
  rw [List.cons_append] at hfind ⊢
  rw [substAux_match keys repl hfind]
  rw [← List.cons_append]
  rw [List.take_left, List.drop_left]

/-! ## Line-level helper lemmas -/

theorem mk_data (s : String) : String.mk s.data = s := by
  cases s
  rfl

theorem data_mk (l : List Char) : (String.mk l).data = l := rfl

theorem isNLChar_isLineBreak {c : Char} (h : isNLChar c = true) :
    pyIsLineBreakChar c = true := by
  unfold isNLChar at h
  rcases Bool.or_eq_true_iff.mp h with h1 | h1
  · rw [of_decide_eq_true h1]
    rfl
  · rw [of_decide_eq_true h1]
    rfl

theorem pyRstripNL_nil : pyRstripNL [] = [] := rfl

theorem pyRstripNL_eq_self {l : List Char}
    (h : ∀ ch ∈ l, isNLChar ch = false) : pyRstripNL l = l := by
  unfold pyRstripNL
  rcases List.eq_nil_or_concat l with rfl | ⟨L, b, rfl⟩
  · rfl
  · rw [List.concat_eq_append] at h ⊢
    rw [List.reverse_append]
    simp only [List.reverse_cons, List.reverse_nil, List.nil_append,
      List.singleton_append]
    rw [List.dropWhile_cons, h b (by simp)]
    simp

theorem pyRstripNL_eq_self_of_breakfree {l : List Char}
    (h : ∀ ch ∈ l, pyIsLineBreakChar ch = false) : pyRstripNL l = l := by
  apply pyRstripNL_eq_self
  intro ch hch
  by_contra hn
  rw [Bool.not_eq_false] at hn
  have h2 := h ch hch
  rw [isNLChar_isLineBreak hn] at h2
  exact Bool.noConfusion h2

theorem alpha_not_space {c : Char} (h : pyIsAlphaChar c = true) :
    pyIsSpaceChar c = false := by
  unfold pyIsAlphaChar at h
  unfold pyIsSpaceChar
  rw [decide_eq_true_eq] at h
  rw [decide_eq_false_iff_not]
  omega

theorem isBlankLine_cons_alpha {c : Char} {l : List Char}
    (h : pyIsAlphaChar c = true) : isBlankLine (c :: l) = false := by
  unfold isBlankLine
  simp [alpha_not_space h]

theorem isCommentLine_cons_alpha {c : Char} {l : List Char}
    (h : pyIsAlphaChar c = true) : isCommentLine (c :: l) = false := by
  unfold isCommentLine pyLstrip
  rw [List.dropWhile_cons]
  rw [alpha_not_space h]
  have hc : c ≠ ';' := by
    intro rfl2
    rw [rfl2] at h
    exact Bool.noConfusion h
  simp [hc]

theorem translate_line_sub {s : String} (h1 : pyRstripNL s.data = s.data)
    (h2 : isBlankLine s.data = false) (h3 : isCommentLine s.data = false) :
    translate_line s = String.mk (pySub _SORTED_KEYS_L forwardRepl s.data) := by
  simp only [translate_line]
  rw [h1, h2, h3]
  rfl

theorem reverse_translate_line_sub {s : String} {rm : List (String × String)}
    (h1 : pyRstripNL s.data = s.data)
    (h2 : isBlankLine s.data = false) (h3 : isCommentLine s.data = false)
    (h4 : isDirectiveLine s.data = false) :
    reverse_translate_line s rm =
      String.mk (pySub _ALL_MNEMONICS_L (reverseRepl rm) s.data) := by
  simp only [reverse_translate_line]
  rw [h1, h2, h3, h4]
  rfl

/-! ## splitlines / join lemmas -/

theorem splitlinesCore_nil (acc : List Char) :
    splitlinesCore [] acc = if acc.isEmpty then [] else [acc.reverse] := rfl

theorem splitlinesCore_single (c : Char) (acc : List Char) :
    splitlinesCore [c] acc =
      if pyIsLineBreakChar c then [acc.reverse] else [(c :: acc).reverse] := rfl

theorem splitlinesCore_cons2 (c d : Char) (cs acc : List Char) :
    splitlinesCore (c :: d :: cs) acc =
      if pyIsLineBreakChar c then
        if c = '\r' ∧ d = '\n' then acc.reverse :: splitlinesCore cs []
        else acc.reverse :: splitlinesCore (d :: cs) []
      else splitlinesCore (d :: cs) (c :: acc) := rfl

theorem splitlinesCore_no_break : ∀ (l acc : List Char),
    (∀ ch ∈ l, pyIsLineBreakChar ch = false) →
    splitlinesCore l acc =
      if acc.reverse ++ l = [] then [] else [acc.reverse ++ l]
  | [], acc, _ => by
    rw [splitlinesCore_nil]
    cases acc <;> simp
  | [c], acc, hbf => by
    rw [splitlinesCore_single, hbf c (by simp)]
    rw [if_neg (by simp)]
    simp
  | c :: d :: cs, acc, hbf => by
    rw [splitlinesCore_cons2, hbf c (by simp)]
    simp only [Bool.false_eq_true, if_false]
    rw [splitlinesCore_no_break (d :: cs) (c :: acc)
      (fun ch hch => hbf ch (List.mem_cons_of_mem c hch))]
    rw [if_neg (by simp), if_neg (by simp)]
    simp

theorem splitlinesCore_firstline : ∀ (L acc rest : List Char),
    (∀ ch ∈ L, pyIsLineBreakChar ch = false) →
    splitlinesCore (L ++ '\n' :: rest) acc =
      (acc.reverse ++ L) :: splitlinesCore rest []
  | [], acc, rest, _ => by
    cases rest with
    | nil =>
      rw [List.nil_append]
      rw [splitlinesCore_single]
      rw [if_pos (by decide)]
      simp [splitlinesCore_nil]
    | cons r rs =>
      rw [List.nil_append]
      rw [splitlinesCore_cons2]
      rw [if_pos (by decide)]
      rw [if_neg (by intro h; exact absurd h.1 (by decide))]
      simp
  | a :: L, acc, rest, hbf => by
    have ha : pyIsLineBreakChar a = false := hbf a (List.mem_cons_self a L)
    have hbfL : ∀ ch ∈ L, pyIsLineBreakChar ch = false :=
      fun ch hch => hbf ch (List.mem_cons_of_mem a hch)
    cases L with
    | nil =>
      rw [List.cons_append, List.nil_append]
      rw [splitlinesCore_cons2, ha]
      simp only [Bool.false_eq_true, if_false]
      have := splitlinesCore_firstline [] (a :: acc) rest (by simp)
      rw [List.nil_append] at this
      rw [this]
      simp
    | cons b L1 =>
      rw [List.cons_append]
      have hshape : (b :: L1) ++ '\n' :: rest = b :: (L1 ++ '\n' :: rest) := rfl
      rw [hshape]
      rw [splitlinesCore_cons2, ha]
      simp only [Bool.false_eq_true, if_false]
      rw [← hshape]
      rw [splitlinesCore_firstline (b :: L1) (a :: acc) rest hbfL]
      simp

theorem joinNLCore_cons2 (l1 l2 : List Char) (ls : List (List Char)) :
    joinNLCore (l1 :: l2 :: ls) = l1 ++ '\n' :: joinNLCore (l2 :: ls) := rfl

/-- Splitting the newline-join of break-free lines recovers the lines,
provided the last line is not empty (a trailing empty line would be
swallowed, which is exactly the deviation recorded for claim C7). -/
theorem splitlines_join : ∀ (ls : List (List Char)),
    (∀ l ∈ ls, ∀ ch ∈ l, pyIsLineBreakChar ch = false) →
    ls.getLast? ≠ some [] →
    splitlinesCore (joinNLCore ls) [] = ls
  | [], _, _ => rfl
  | [l], hbf, hlast => by
    show splitlinesCore l [] = [l]
    rw [splitlinesCore_no_break l [] (hbf l (by simp))]
    have hne : l ≠ [] := by
      intro h
      exact hlast (by simp [h])
    simp [hne]
  | l1 :: l2 :: ls, hbf, hlast => by
    rw [joinNLCore_cons2]
    rw [splitlinesCore_firstline l1 [] _ (hbf l1 (by simp))]
    rw [splitlines_join (l2 :: ls) (fun l hl => hbf l (List.mem_cons_of_mem l1 hl))
      (by simpa [List.getLast?_cons_cons] using hlast)]
    simp

theorem splitlinesCore_breakfree : ∀ (l acc : List Char),
    (∀ ch ∈ acc, pyIsLineBreakChar ch = false) →
    ∀ out ∈ splitlinesCore l acc, ∀ ch ∈ out, pyIsLineBreakChar ch = false
  | [], acc, hacc => by
    rw [splitlinesCore_nil]
    split_ifs
    · simp
    · intro out hout ch hch
      rw [List.mem_singleton] at hout
      subst hout
      exact hacc ch (List.mem_reverse.mp hch)
  | [c], acc, hacc => by
    rw [splitlinesCore_single]
    split_ifs with hbc
    · intro out hout ch hch
      rw [List.mem_singleton] at hout
      subst hout
      exact hacc ch (List.mem_reverse.mp hch)
    · intro out hout ch hch
      rw [List.mem_singleton] at hout
      subst hout
      rw [List.mem_reverse, List.mem_cons] at hch
      rcases hch with rfl | hch
      · simpa using hbc
      · exact hacc ch hch
  | c :: d :: cs, acc, hacc => by
    rw [splitlinesCore_cons2]
    split_ifs with hbc hcr
    · intro out hout ch hch
      rcases List.mem_cons.mp hout with rfl | hout2
      · exact hacc ch (List.mem_reverse.mp hch)
      · exact splitlinesCore_breakfree cs [] (by simp) out hout2 ch hch
    · intro out hout ch hch
      rcases List.mem_cons.mp hout with rfl | hout2
      · exact hacc ch (List.mem_reverse.mp hch)
      · exact splitlinesCore_breakfree (d :: cs) [] (by simp) out hout2 ch hch
    · intro out hout ch hch
      refine splitlinesCore_breakfree (d :: cs) (c :: acc) ?_ out hout ch hch
      intro x hx
      rcases List.mem_cons.mp hx with rfl | hx2
      · simpa using hbc
      · exact hacc x hx2

/-! ## Decidable facts about the tables -/

/-- Structural facts holding for every readable-name alternative of the
forward matcher: non-empty, starts with a letter, all characters are
word characters, no upper-case letters, contains an underscore, ends with
a word character, and contains no line break. -/
def goodKeyB (k : List Char) : Bool :=
  ! k.isEmpty && pyIsAlphaChar (k.headD 'A') &&
  k.all (fun ch => pyIsWordChar ch &&
    ! decide (65 ≤ ch.toNat ∧ ch.toNat ≤ 90) && ! pyIsLineBreakChar ch) &&
  k.any (fun ch => charEqNat ch '_') &&
  pyIsWordChar (k.getLastD 'A')

/-- Structural facts holding for every standard mnemonic (forward-map
value): non-empty, starts with a letter, no underscore, no line break. -/
def goodValB (v : List Char) : Bool :=
  ! v.isEmpty && pyIsAlphaChar (v.headD 'A') &&
  v.all (fun ch => ! charEqNat ch '_' && ! pyIsLineBreakChar ch)

/-- Structural facts for every alternative of the reverse matcher:
non-empty, starts with a letter, no lower-case letters, no line break. -/
def goodMnB (m : List Char) : Bool :=
  ! m.isEmpty && pyIsAlphaChar (m.headD 'A') &&
  m.all (fun ch => ! decide (97 ≤ ch.toNat ∧ ch.toNat ≤ 122) &&
    ! pyIsLineBreakChar ch)

/-- Structural facts for every readable name in the reverse maps:
non-empty and break-free. -/
def goodReadB (v : List Char) : Bool :=
  ! v.isEmpty && v.all (fun ch => ! pyIsLineBreakChar ch)

theorem KEYS_GOOD : _SORTED_KEYS_L.all goodKeyB = true := by decide

theorem VALS_GOOD : INSTRUCTION_MAP_ALL.all (fun p => goodValB p.2.data) = true := by
  decide

theorem MNEMONICS_GOOD : _ALL_MNEMONICS_L.all goodMnB = true := by decide

theorem REVVALS_EN :
    REVERSE_MAP_ALL_EN.all (fun p => goodReadB p.2.data) = true := by decide

theorem REVVALS_SI :
    REVERSE_MAP_ALL_SI.all (fun p => goodReadB p.2.data) = true := by decide

theorem KEYS_SORTED :
    List.Pairwise (fun a b : List Char => b.length ≤ a.length) _SORTED_KEYS_L := by
  decide

theorem MNEM_SORTED :
    List.Pairwise (fun a b : List Char => b.length ≤ a.length) _ALL_MNEMONICS_L := by
  decide

/-! ## Extracted facts and preservation lemmas -/

theorem key_facts {k : List Char} (hk : k ∈ _SORTED_KEYS_L) :
    k ≠ [] ∧ (∃ a t, k = a :: t ∧ pyIsAlphaChar a = true) ∧
    (∀ ch ∈ k, pyIsWordChar ch = true) ∧
    (∀ ch ∈ k, ¬ (65 ≤ ch.toNat ∧ ch.toNat ≤ 90)) ∧
    '_' ∈ k ∧ pyIsWordChar (k.getLastD 'A') = true ∧
    (∀ ch ∈ k, pyIsLineBreakChar ch = false) := by
  have h := List.all_eq_true.mp KEYS_GOOD k hk
  unfold goodKeyB at h
  simp only [Bool.and_eq_true, List.all_eq_true, List.any_eq_true,
    Bool.not_eq_true', decide_eq_false_iff_not] at h
  obtain ⟨⟨⟨⟨hne, hhead⟩, hall⟩, hus⟩, hlast⟩ := h
  have hkne : k ≠ [] := by
    intro h2
    rw [h2] at hne
    exact Bool.noConfusion hne
  obtain ⟨a, t, rfl⟩ := List.exists_cons_of_ne_nil hkne
  refine ⟨hkne, ⟨a, t, rfl, by simpa using hhead⟩, ?_, ?_, ?_, hlast, ?_⟩
  · intro ch hch
    exact (hall ch hch).1.1
  · intro ch hch
    exact (hall ch hch).1.2
  · obtain ⟨ch, hch, hch2⟩ := hus
    have : ch = '_' := charEqNat_iff.mp (by simpa using hch2)
    rw [← this]
    exact hch
  · intro ch hch
    exact (hall ch hch).2

theorem mnemonic_facts {m : List Char} (hm : m ∈ _ALL_MNEMONICS_L) :
    m ≠ [] ∧ (∃ a t, m = a :: t ∧ pyIsAlphaChar a = true) ∧
    (∀ ch ∈ m, ¬ (97 ≤ ch.toNat ∧ ch.toNat ≤ 122)) ∧
    (∀ ch ∈ m, pyIsLineBreakChar ch = false) := by
  have h := List.all_eq_true.mp MNEMONICS_GOOD m hm
  unfold goodMnB at h
  simp only [Bool.and_eq_true, List.all_eq_true, Bool.not_eq_true',
    decide_eq_false_iff_not] at h
  obtain ⟨⟨hne, hhead⟩, hall⟩ := h
  have hmne : m ≠ [] := by
    intro h2
    rw [h2] at hne
    exact Bool.noConfusion hne
  obtain ⟨a, t, rfl⟩ := List.exists_cons_of_ne_nil hmne
  refine ⟨hmne, ⟨a, t, rfl, by simpa using hhead⟩, ?_, ?_⟩
  · intro ch hch
    exact (hall ch hch).1
  · intro ch hch
    exact (hall ch hch).2

theorem val_facts {k v : String} (h : (k, v) ∈ INSTRUCTION_MAP_ALL) :
    v.data ≠ [] ∧ (∃ a t, v.data = a :: t ∧ pyIsAlphaChar a = true) ∧
    (∀ ch ∈ v.data, ch ≠ '_') ∧ (∀ ch ∈ v.data, pyIsLineBreakChar ch = false) := by
  have h2 := List.all_eq_true.mp VALS_GOOD (k, v) h
  unfold goodValB at h2
  simp only [Bool.and_eq_true, List.all_eq_true, Bool.not_eq_true',
    decide_eq_false_iff_not] at h2
  obtain ⟨⟨hne, hhead⟩, hall⟩ := h2
  have hvne : v.data ≠ [] := by
    intro h3
    rw [h3] at hne
    exact Bool.noConfusion hne
  obtain ⟨a, t, hat⟩ := List.exists_cons_of_ne_nil hvne
  refine ⟨hvne, ⟨a, t, hat, by rw [hat] at hhead; simpa using hhead⟩, ?_, ?_⟩
  · intro ch hch h3
    have h4 := (hall ch hch).1
    rw [h3] at h4
    rw [show charEqNat '_' '_' = true from charEqNat_iff.mpr rfl] at h4
    exact Bool.noConfusion h4
  · intro ch hch
    exact (hall ch hch).2

theorem revval_facts {rm : List (String × String)} {k v : String}
    (hgood : rm.all (fun p => goodReadB p.2.data) = true) (h : (k, v) ∈ rm) :
    v.data ≠ [] ∧ (∀ ch ∈ v.data, pyIsLineBreakChar ch = false) := by
  have h2 := List.all_eq_true.mp hgood (k, v) h
  unfold goodReadB at h2
  simp only [Bool.and_eq_true, List.all_eq_true, Bool.not_eq_true'] at h2
  obtain ⟨hne, hall⟩ := h2
  refine ⟨?_, hall⟩
  intro h3
  rw [h3] at hne
  exact Bool.noConfusion hne

/-- If the matched text is case-insensitively equal to a lower-case key,
its lower-casing is that key. -/
theorem pyToLowerL_of_ci : ∀ {k m : List Char},
    (∀ ch ∈ k, ¬ (65 ≤ ch.toNat ∧ ch.toNat ≤ 90)) →
    ciListEq k m = true → pyToLowerL m = k
  | [], [], _, _ => rfl
  | [], _ :: _, _, hci => by simp [ciListEq] at hci
  | _ :: _, [], _, hci => by simp [ciListEq] at hci
  | a :: k, b :: m, hlow, hci => by
    simp only [ciListEq, Bool.and_eq_true] at hci
    unfold pyToLowerL
    rw [List.map_cons]
    have h1 : pyToLowerChar b = a := by
      apply char_eq_of_toNat_eq
      rw [pyToLowerChar_toNat]
      have h2 := ciEqChar_lowerNat hci.1
      rw [← h2]
      unfold lowerNat
      rw [if_neg (hlow a (List.mem_cons_self a k))]
    rw [h1]
    have := pyToLowerL_of_ci (fun ch hch => hlow ch (List.mem_cons_of_mem a hch)) hci.2
    unfold pyToLowerL at this
    rw [this]

/-- If the matched text is case-insensitively equal to a key with no
lower-case letters, its upper-casing is that key. -/
theorem pyToUpperL_of_ci : ∀ {k m : List Char},
    (∀ ch ∈ k, ¬ (97 ≤ ch.toNat ∧ ch.toNat ≤ 122)) →
    ciListEq k m = true → pyToUpperL m = k
  | [], [], _, _ => rfl
  | [], _ :: _, _, hci => by simp [ciListEq] at hci
  | _ :: _, [], _, hci => by simp [ciListEq] at hci
  | a :: k, b :: m, hhi, hci => by
    simp only [ciListEq, Bool.and_eq_true] at hci
    unfold pyToUpperL
    rw [List.map_cons]
    have h1 : pyToUpperChar b = a := by
      apply char_eq_of_toNat_eq
      have h2 := ciEqChar_lowerNat hci.1
      have ha := hhi a (List.mem_cons_self a k)
      unfold pyToUpperChar
      split_ifs with hbl
      · have hv2 : (b.val.toBitVec.toNat - 32).isValidChar := by
          left
          have hb2 : b.toNat ≤ 122 := hbl.2
          simp only [Char.toNat, UInt32.toNat] at hb2 ⊢
          omega
        have htn : (Char.ofNat (b.toNat - 32)).toNat = b.toNat - 32 := by
          simp [Char.ofNat, hv2, Char.ofNatAux, Char.toNat, UInt32.toNat,
            BitVec.toNat_ofNatLt]
        rw [htn]
        unfold lowerNat at h2
        split_ifs at h2 <;> omega
      · unfold lowerNat at h2
        split_ifs at h2 <;> omega
    rw [h1]
    have := pyToUpperL_of_ci (fun ch hch => hhi ch (List.mem_cons_of_mem a hch)) hci.2
    unfold pyToUpperL at this
    rw [this]

/-! ## Replacement characterisation and preservation -/

theorem forwardRepl_eq {k : List Char} (hk : k ∈ _SORTED_KEYS_L) {m : List Char}
    (hci : ciListEq k m = true) :
    ∃ ks v, k = ks.data ∧ lookupStr ks INSTRUCTION_MAP_ALL = some v ∧
      forwardRepl m = v.data ∧ (ks, v) ∈ INSTRUCTION_MAP_ALL := by
  obtain ⟨ks, hks, rfl⟩ := List.mem_map.mp hk
  have hks2 : ks ∈ pyKeys INSTRUCTION_MAP_ALL := mem_pySortLenDesc.mp hks
  obtain ⟨v, hv⟩ := lookupStr_of_mem_keys hks2
  refine ⟨ks, v, rfl, hv, ?_, lookupStr_mem hv⟩
  unfold forwardRepl
  have hlow : pyToLowerL m = ks.data :=
    pyToLowerL_of_ci (key_facts hk).2.2.2.1 hci
  rw [hlow, mk_data, hv]

theorem forwardRepl_alpha : ∀ (m k : List Char), k ∈ _SORTED_KEYS_L →
    ciListEq k m = true →
    ∃ a t, forwardRepl m = a :: t ∧ pyIsAlphaChar a = true := by
  intro m k hk hci
  obtain ⟨ks, v, -, -, hrepl, hmem⟩ := forwardRepl_eq hk hci
  obtain ⟨-, ⟨a, t, hat, ha⟩, -, -⟩ := val_facts hmem
  exact ⟨a, t, by rw [hrepl, hat], ha⟩

theorem forwardRepl_no_underscore : ∀ (m k : List Char), k ∈ _SORTED_KEYS_L →
    ciListEq k m = true → ∀ ch ∈ forwardRepl m, ch ≠ '_' := by
  intro m k hk hci ch hch
  obtain ⟨ks, v, -, -, hrepl, hmem⟩ := forwardRepl_eq hk hci
  rw [hrepl] at hch
  exact (val_facts hmem).2.2.1 ch hch

theorem forwardRepl_breakfree (m : List Char)
    (h : ∀ ch ∈ m, pyIsLineBreakChar ch = false) :
    ∀ ch ∈ forwardRepl m, pyIsLineBreakChar ch = false := by
  unfold forwardRepl
  cases hl : lookupStr (String.mk (pyToLowerL m)) INSTRUCTION_MAP_ALL with
  | none => exact h
  | some v =>
    intro ch hch
    exact (val_facts (lookupStr_mem hl)).2.2.2 ch hch

theorem forwardRepl_ne_nil (m : List Char) (hm : m ≠ []) : forwardRepl m ≠ [] := by
  unfold forwardRepl
  cases hl : lookupStr (String.mk (pyToLowerL m)) INSTRUCTION_MAP_ALL with
  | none => exact hm
  | some v => exact (val_facts (lookupStr_mem hl)).1

theorem reverseRepl_breakfree {rm : List (String × String)}
    (hgood : rm.all (fun p => goodReadB p.2.data) = true) (m : List Char)
    (h : ∀ ch ∈ m, pyIsLineBreakChar ch = false) :
    ∀ ch ∈ reverseRepl rm m, pyIsLineBreakChar ch = false := by
  unfold reverseRepl
  cases hl : lookupStr (String.mk (pyToUpperL m)) rm with
  | none => exact h
  | some v =>
    intro ch hch
    exact (revval_facts hgood (lookupStr_mem hl)).2 ch hch

theorem reverseRepl_ne_nil {rm : List (String × String)}
    (hgood : rm.all (fun p => goodReadB p.2.data) = true) (m : List Char)
    (hm : m ≠ []) : reverseRepl rm m ≠ [] := by
  unfold reverseRepl
  cases hl : lookupStr (String.mk (pyToUpperL m)) rm with
  | none => exact hm
  | some v => exact (revval_facts hgood (lookupStr_mem hl)).1

theorem substAux_breakfree (keys : List (List Char)) (repl : List Char → List Char)
    (HR : ∀ m, (∀ ch ∈ m, pyIsLineBreakChar ch = false) →
      ∀ ch ∈ repl m, pyIsLineBreakChar ch = false) :
    ∀ (l : List Char) (n : Nat) (p : Bool),
      (∀ ch ∈ l, pyIsLineBreakChar ch = false) →
      ∀ ch ∈ substAux keys repl n p l, pyIsLineBreakChar ch = false := by
  intro l
  induction l with
  | nil =>
    intro n p _ ch hch
    rw [substAux_nil] at hch
    simp at hch
  | cons c cs ih =>
    intro n p hl ch hch
    have hc : pyIsLineBreakChar c = false := hl c (List.mem_cons_self c cs)
    have hcs : ∀ x ∈ cs, pyIsLineBreakChar x = false :=
      fun x hx => hl x (List.mem_cons_of_mem c hx)
    cases n with
    | succ n1 =>
      rw [substAux_skip] at hch
      exact ih n1 (pyIsWordChar c) hcs ch hch
    | zero =>
      cases p with
      | true =>
        rw [substAux_prevW] at hch
        rcases List.mem_cons.mp hch with rfl | hch2
        · exact hc
        · exact ih 0 (pyIsWordChar c) hcs ch hch2
      | false =>
        cases hf : findKey keys (c :: cs) with
        | none =>
          rw [substAux_none keys repl hf] at hch
          rcases List.mem_cons.mp hch with rfl | hch2
          · exact hc
          · exact ih 0 (pyIsWordChar c) hcs ch hch2
        | some k =>
          rw [substAux_some keys repl hf] at hch
          rcases List.mem_append.mp hch with hch2 | hch2
          · refine HR _ ?_ ch hch2
            intro x hx
            exact hl x (List.take_subset _ _ hx)
          · exact ih (k.length - 1) (pyIsWordChar c) hcs ch hch2

theorem substAux_ne_nil (keys : List (List Char)) (repl : List Char → List Char)
    (HRne : ∀ m, m ≠ [] → repl m ≠ []) {c : Char} {cs : List Char} (p : Bool) :
    substAux keys repl 0 p (c :: cs) ≠ [] := by
  cases p with
  | true =>
    rw [substAux_prevW]
    simp
  | false =>
    cases hf : findKey keys (c :: cs) with
    | none =>
      rw [substAux_none keys repl hf]
      simp
    | some k =>
      rw [substAux_some keys repl hf]
      obtain ⟨hne, -, -, -⟩ := keyMatches_elim (findKey_some hf).2
      have hm : (c :: cs).take k.length ≠ [] := by
        obtain ⟨a, t, rfl⟩ := List.exists_cons_of_ne_nil hne
        simp [List.take_succ_cons]
      intro habs
      rw [List.append_eq_nil] at habs
      exact HRne _ hm habs.1


/-! ## Line-level preservation and the splitlines/map/join glue -/

theorem translate_line_breakfree {s : String}
    (h : ∀ ch ∈ s.data, pyIsLineBreakChar ch = false) :
    ∀ ch ∈ (translate_line s).data, pyIsLineBreakChar ch = false := by
  have hrs : pyRstripNL s.data = s.data := pyRstripNL_eq_self_of_breakfree h
  simp only [translate_line, hrs]
  by_cases hcond : (isBlankLine s.data || isCommentLine s.data) = true
  · rw [if_pos hcond]
    exact h
  · rw [if_neg hcond]
    intro ch hch
    rw [data_mk] at hch
    simp only [pySub] at hch
    exact substAux_breakfree _ _ forwardRepl_breakfree s.data 0 false h ch hch

theorem translate_line_ne_nil {s : String}
    (h : ∀ ch ∈ s.data, pyIsLineBreakChar ch = false) (hne : s.data ≠ []) :
    (translate_line s).data ≠ [] := by
  have hrs : pyRstripNL s.data = s.data := pyRstripNL_eq_self_of_breakfree h
  simp only [translate_line, hrs]
  by_cases hcond : (isBlankLine s.data || isCommentLine s.data) = true
  · rw [if_pos hcond]
    exact hne
  · rw [if_neg hcond]
    obtain ⟨c, cs, hccs⟩ := List.exists_cons_of_ne_nil hne
    rw [data_mk, hccs]
    simp only [pySub]
    exact substAux_ne_nil _ _ forwardRepl_ne_nil false

theorem reverse_translate_line_breakfree {rm : List (String × String)}
    (hgood : rm.all (fun p => goodReadB p.2.data) = true) {s : String}
    (h : ∀ ch ∈ s.data, pyIsLineBreakChar ch = false) :
    ∀ ch ∈ (reverse_translate_line s rm).data, pyIsLineBreakChar ch = false := by
  have hrs : pyRstripNL s.data = s.data := pyRstripNL_eq_self_of_breakfree h
  simp only [reverse_translate_line, hrs]
  by_cases hcond : (isBlankLine s.data || isCommentLine s.data) = true
  · rw [if_pos hcond]
    exact h
  · rw [if_neg hcond]
    by_cases hdir : isDirectiveLine s.data = true
    · rw [if_pos hdir]
      exact h
    · rw [if_neg hdir]
      intro ch hch
      rw [data_mk] at hch
      simp only [pySub] at hch
      exact substAux_breakfree _ _ (reverseRepl_breakfree hgood) s.data 0 false h ch hch

theorem reverse_translate_line_ne_nil {rm : List (String × String)}
    (hgood : rm.all (fun p => goodReadB p.2.data) = true) {s : String}
    (h : ∀ ch ∈ s.data, pyIsLineBreakChar ch = false) (hne : s.data ≠ []) :
    (reverse_translate_line s rm).data ≠ [] := by
  have hrs : pyRstripNL s.data = s.data := pyRstripNL_eq_self_of_breakfree h
  simp only [reverse_translate_line, hrs]
  by_cases hcond : (isBlankLine s.data || isCommentLine s.data) = true
  · rw [if_pos hcond]
    exact hne
  · rw [if_neg hcond]
    by_cases hdir : isDirectiveLine s.data = true
    · rw [if_pos hdir]
      exact hne
    · rw [if_neg hdir]
      obtain ⟨c, cs, hccs⟩ := List.exists_cons_of_ne_nil hne
      rw [data_mk, hccs]
      simp only [pySub]
      exact substAux_ne_nil _ _ (reverseRepl_ne_nil hgood) false

theorem revMapFor_good (lang : String) :
    (revMapFor lang).all (fun p => goodReadB p.2.data) = true := by
  unfold revMapFor
  split_ifs
  · exact REVVALS_SI
  · exact REVVALS_EN

theorem joinmap_core (f : String → String)
    (hbf : ∀ t : String, (∀ ch ∈ t.data, pyIsLineBreakChar ch = false) →
      ∀ ch ∈ (f t).data, pyIsLineBreakChar ch = false)
    (hne : ∀ t : String, (∀ ch ∈ t.data, pyIsLineBreakChar ch = false) →
      t.data ≠ [] → (f t).data ≠ [])
    (LS : List (List Char))
    (hLSbf : ∀ l ∈ LS, ∀ ch ∈ l, pyIsLineBreakChar ch = false)
    (hlast : LS.getLast? ≠ some []) :
    splitlinesCore (joinNLCore (LS.map (fun l => (f (String.mk l)).data))) [] =
      LS.map (fun l => (f (String.mk l)).data) := by
  apply splitlines_join
  · intro l' hl'
    obtain ⟨l, hl, rfl⟩ := List.mem_map.mp hl'
    exact hbf (String.mk l) (hLSbf l hl)
  · intro habs
    rw [List.getLast?_map] at habs
    cases hLSl : LS.getLast? with
    | none => rw [hLSl] at habs; exact Option.noConfusion habs
    | some last =>
      rw [hLSl] at habs
      have hfl : (f (String.mk last)).data = [] := by
        simpa using habs
      have hlastmem : last ∈ LS := by
        obtain ⟨h0, heq⟩ := List.mem_getLast?_eq_getLast (Option.mem_def.mpr hLSl)
        rw [heq]
        exact List.getLast_mem h0
      have hlne : last ≠ [] := fun h0 => hlast (by rw [hLSl, h0])
      exact hne (String.mk last) (hLSbf last hlastmem) hlne hfl

/-- The splitlines-of-join identity at the level of whole programs: if f
maps break-free lines to break-free non-empty lines and the last input
line is not empty, the join of the mapped lines splits back into the
mapped lines. -/
theorem splitlines_map_join (f : String → String)
    (hbf : ∀ t : String, (∀ ch ∈ t.data, pyIsLineBreakChar ch = false) →
      ∀ ch ∈ (f t).data, pyIsLineBreakChar ch = false)
    (hne : ∀ t : String, (∀ ch ∈ t.data, pyIsLineBreakChar ch = false) →
      t.data ≠ [] → (f t).data ≠ [])
    (s : String) (hlast : (pySplitlines s).getLast? ≠ some "") :
    pySplitlines (pyJoinNL ((pySplitlines s).map f)) = (pySplitlines s).map f := by
  unfold pySplitlines pyJoinNL
  rw [data_mk]
  have hmaps : (((splitlinesCore s.data []).map String.mk).map f).map String.data =
      (splitlinesCore s.data []).map (fun l => (f (String.mk l)).data) := by
    rw [List.map_map, List.map_map]
    rfl
  rw [hmaps]
  have hLSbf : ∀ l ∈ splitlinesCore s.data [], ∀ ch ∈ l, pyIsLineBreakChar ch = false :=
    splitlinesCore_breakfree s.data [] (by intro ch hch; simp at hch)
  have hlast2 : (splitlinesCore s.data []).getLast? ≠ some [] := by
    intro h0
    apply hlast
    show ((splitlinesCore s.data []).map String.mk).getLast? = some ""
    rw [List.getLast?_map, h0]
    rfl
  rw [joinmap_core f hbf hne (splitlinesCore s.data []) hLSbf hlast2]
  rw [List.map_map, List.map_map]
  apply List.map_congr_left
  intro l hl
  simp [Function.comp, mk_data]

/-- If the last input line is not empty, translate commutes with
splitlines: the lines of the output are the translated input lines. -/
theorem translate_lines_eq (s : String)
    (hlast : (pySplitlines s).getLast? ≠ some "") :
    pySplitlines (translate s) = (pySplitlines s).map translate_line := by
  unfold translate
  exact splitlines_map_join translate_line
    (fun t ht => translate_line_breakfree ht)
    (fun t ht h0 => translate_line_ne_nil ht h0) s hlast

/-- Reverse counterpart of translate_lines_eq, for either language. -/
theorem reverse_translate_lines_eq (s lang : String)
    (hlast : (pySplitlines s).getLast? ≠ some "") :
    pySplitlines (reverse_translate s lang) =
      (pySplitlines s).map (fun l => reverse_translate_line l (revMapFor lang)) := by
  unfold reverse_translate
  exact splitlines_map_join _
    (fun t ht => reverse_translate_line_breakfree (revMapFor_good lang) ht)
    (fun t ht h0 => reverse_translate_line_ne_nil (revMapFor_good lang) ht h0) s hlast

/-- A break-free non-empty string is a single line. -/
theorem pySplitlines_single {s : String}
    (hbf : ∀ ch ∈ s.data, pyIsLineBreakChar ch = false) (hne : s.data ≠ []) :
    pySplitlines s = [s] := by
  unfold pySplitlines
  rw [splitlinesCore_no_break s.data [] hbf]
  rw [List.reverse_nil, List.nil_append]
  rw [if_neg hne]
  simp [mk_data]

/-- On a single-line break-free input, translate is translate_line. -/
theorem translate_single {s : String}
    (hbf : ∀ ch ∈ s.data, pyIsLineBreakChar ch = false) (hne : s.data ≠ []) :
    translate s = translate_line s := by
  unfold translate
  rw [pySplitlines_single hbf hne]
  rfl

/-- On a single-line break-free input, reverse_translate is
reverse_translate_line with the selected map. -/
theorem reverse_translate_single {s : String} (lang : String)
    (hbf : ∀ ch ∈ s.data, pyIsLineBreakChar ch = false) (hne : s.data ≠ []) :
    reverse_translate s lang = reverse_translate_line s (revMapFor lang) := by
  unfold reverse_translate
  rw [pySplitlines_single hbf hne]
  rfl


/-! ## Whole-token lines: the matched token and nothing else -/

/-- Case-insensitively equal lists without upper-case letters are equal. -/
theorem ciListEq_eq_of_not_upper : ∀ {as bs : List Char},
    (∀ ch ∈ as, ¬ (65 ≤ ch.toNat ∧ ch.toNat ≤ 90)) →
    (∀ ch ∈ bs, ¬ (65 ≤ ch.toNat ∧ ch.toNat ≤ 90)) →
    ciListEq as bs = true → as = bs
  | [], [], _, _, _ => rfl
  | [], _ :: _, _, _, h => by simp [ciListEq] at h
  | _ :: _, [], _, _, h => by simp [ciListEq] at h
  | a :: as, b :: bs, ha, hb, h => by
    simp only [ciListEq, Bool.and_eq_true] at h
    have h1 : a = b := ciEqChar_eq_of_not_upper (ha a (List.mem_cons_self a as))
      (hb b (List.mem_cons_self b bs)) h.1
    rw [h1, ciListEq_eq_of_not_upper (fun ch hch => ha ch (List.mem_cons_of_mem a hch))
      (fun ch hch => hb ch (List.mem_cons_of_mem b hch)) h.2]

/-- The key itself matches at the start of key ++ ops when the look-ahead
after the key succeeds. -/
theorem keyMatches_self {r ops : List Char} (hne : r ≠ [])
    (hla : lookaheadOK ops = true) : keyMatches r (r ++ ops) = true :=
  keyMatches_intro hne (by rw [List.take_left]; exact ciListEq_refl r)
    (by rw [List.drop_left]; exact hla)

/-- On a text that starts with the whole key r followed by a non-word
boundary, every alternative that matches at the start is r itself or
strictly shorter: a longer alternative would have to match a word
character across the boundary, and an equally long one is forced to be r
since keys carry no upper-case letters. -/
theorem keyMatches_bound (keys : List (List Char))
    (HK1 : ∀ k ∈ keys, ∀ ch ∈ k, pyIsWordChar ch = true)
    (HKnu : ∀ k ∈ keys, ∀ ch ∈ k, ¬ (65 ≤ ch.toNat ∧ ch.toNat ≤ 90))
    {r : List Char} (hr : r ∈ keys) {ops : List Char}
    (hla : lookaheadOK ops = true) :
    ∀ k ∈ keys, keyMatches k (r ++ ops) = true → k = r ∨ k.length < r.length := by
  intro k hk hkm
  obtain ⟨hkne, hci, -, hlen⟩ := keyMatches_elim hkm
  rcases Nat.lt_trichotomy k.length r.length with hlt | heq | hgt
  · right
    exact hlt
  · left
    have htake : (r ++ ops).take k.length = r := by
      rw [heq, List.take_left]
    rw [htake] at hci
    exact ciListEq_eq_of_not_upper (HKnu k hk) (HKnu r hr) hci
  · exfalso
    rw [List.length_append] at hlen
    have hopsne : ops ≠ [] := by
      intro h0
      rw [h0] at hlen
      simp at hlen
      omega
    obtain ⟨o, ops1, rfl⟩ := List.exists_cons_of_ne_nil hopsne
    have ho : pyIsWordChar o = false := by
      rw [lookaheadOK_cons] at hla
      simpa using hla
    have hk1len : (k.take r.length).length = r.length := by
      rw [List.length_take]
      omega
    have htake : (r ++ o :: ops1).take k.length =
        r ++ (o :: ops1).take (k.length - r.length) := by
      rw [List.take_append_eq_append_take]
      rw [List.take_of_length_le (Nat.le_of_lt hgt)]
    have hci2 : ciListEq (k.take r.length ++ k.drop r.length)
        (r ++ (o :: ops1).take (k.length - r.length)) = true := by
      rw [List.take_append_drop, ← htake]
      exact hci
    rw [ciListEq_append _ _ _ _ hk1len] at hci2
    simp only [Bool.and_eq_true] at hci2
    obtain ⟨-, hci3⟩ := hci2
    have hdropne : k.drop r.length ≠ [] := by
      intro h0
      have h1 := congrArg List.length h0
      rw [List.length_drop] at h1
      simp at h1
      omega
    obtain ⟨d, ds, hds⟩ := List.exists_cons_of_ne_nil hdropne
    have htk : (o :: ops1).take (k.length - r.length) =
        o :: ops1.take (k.length - r.length - 1) := by
      obtain ⟨j, hj⟩ : ∃ j, k.length - r.length = j + 1 :=
        ⟨k.length - r.length - 1, by omega⟩
      rw [hj, List.take_succ_cons]
      simp
    rw [hds, htk] at hci3
    simp only [ciListEq, Bool.and_eq_true] at hci3
    have hword := ciEqChar_word hci3.1
    have hdmem : d ∈ k := List.drop_subset r.length k (by
      rw [hds]
      exact List.mem_cons_self d ds)
    have hd : pyIsWordChar d = true := HK1 k hk d hdmem
    rw [hword, ho] at hd
    exact Bool.noConfusion hd

/-- The scanner copies a text byte for byte, from any state, when no
alternative matches at any of its positions. -/
theorem substAux_id_of_no_match (keys : List (List Char))
    (repl : List Char → List Char) :
    ∀ (l : List Char) (p : Bool),
      (∀ m, m ≤ l.length → findKey keys (l.drop m) = none) →
      substAux keys repl 0 p l = l := by
  intro l
  induction l with
  | nil =>
    intro p _
    exact substAux_nil keys repl 0 p
  | cons c cs ih =>
    intro p hno
    have hcs : ∀ m, m ≤ cs.length → findKey keys (cs.drop m) = none := by
      intro m hm
      have h1 := hno (m + 1) (by simpa using Nat.succ_le_succ hm)
      simpa using h1
    cases p with
    | true =>
      rw [substAux_prevW, ih (pyIsWordChar c) hcs]
    | false =>
      have h0 : findKey keys (c :: cs) = none := by
        simpa using hno 0 (Nat.zero_le _)
      rw [substAux_none keys repl h0, ih (pyIsWordChar c) hcs]

/-- Translating a line that consists of a readable name followed by
operand text that the scanner leaves in place replaces exactly the name
by its mnemonic and copies the operands byte for byte. -/
theorem translate_line_token (r v : String) (ops : List Char)
    (hlook : lookupStr r INSTRUCTION_MAP_ALL = some v)
    (hbf : ∀ ch ∈ ops, pyIsLineBreakChar ch = false)
    (hstable : substAux _SORTED_KEYS_L forwardRepl 0 (lastW r.data false) ops = ops)
    (hla : lookaheadOK ops = true) :
    translate_line (String.mk (r.data ++ ops)) = String.mk (v.data ++ ops) := by
  have hmem := lookupStr_mem hlook
  have hrk : r.data ∈ _SORTED_KEYS_L := by
    apply List.mem_map.mpr
    refine ⟨r, ?_, rfl⟩
    exact mem_pySortLenDesc.mpr (List.mem_map.mpr ⟨(r, v), hmem, rfl⟩)
  have kf := key_facts hrk
  have hdata : (String.mk (r.data ++ ops)).data = r.data ++ ops := data_mk _
  have hlbf : ∀ ch ∈ r.data ++ ops, pyIsLineBreakChar ch = false := by
    intro ch hch
    rcases List.mem_append.mp hch with h1 | h1
    · exact kf.2.2.2.2.2.2 ch h1
    · exact hbf ch h1
  obtain ⟨a, t, hat, halpha⟩ := kf.2.1
  have hshape : r.data ++ ops = a :: (t ++ ops) := by
    rw [hat]
    rfl
  have hstrip : pyRstripNL (String.mk (r.data ++ ops)).data =
      (String.mk (r.data ++ ops)).data := by
    rw [hdata]
    exact pyRstripNL_eq_self_of_breakfree hlbf
  have hblank : isBlankLine (String.mk (r.data ++ ops)).data = false := by
    rw [hdata, hshape]
    exact isBlankLine_cons_alpha halpha
  have hcomm : isCommentLine (String.mk (r.data ++ ops)).data = false := by
    rw [hdata, hshape]
    exact isCommentLine_cons_alpha halpha
  rw [translate_line_sub hstrip hblank hcomm, hdata]
  rw [pySub_token _SORTED_KEYS_L forwardRepl KEYS_SORTED hrk
    (keyMatches_self kf.1 hla)
    (keyMatches_bound _SORTED_KEYS_L (fun k hk => (key_facts hk).2.2.1)
      (fun k hk => (key_facts hk).2.2.2.1) hrk hla)]
  have hfr : forwardRepl r.data = v.data := by
    unfold forwardRepl
    rw [pyToLowerL_of_ci kf.2.2.2.1 (ciListEq_refl r.data), mk_data, hlook]
  rw [hfr]
  rw [hstable]

/-! ## Idempotence of the forward pass, line by line -/

theorem pySplitlines_breakfree {s t : String} (ht : t ∈ pySplitlines s) :
    ∀ ch ∈ t.data, pyIsLineBreakChar ch = false := by
  unfold pySplitlines at ht
  obtain ⟨l, hl, rfl⟩ := List.mem_map.mp ht
  rw [data_mk]
  exact splitlinesCore_breakfree s.data [] (by intro ch hch; simp at hch) l hl

theorem translate_line_idem {s : String}
    (hbf : ∀ ch ∈ s.data, pyIsLineBreakChar ch = false) :
    translate_line (translate_line s) = translate_line s := by
  have hrs : pyRstripNL s.data = s.data := pyRstripNL_eq_self_of_breakfree hbf
  by_cases hcond : (isBlankLine s.data || isCommentLine s.data) = true
  · have h1 : translate_line s = s := by
      simp only [translate_line, hrs]
      rw [if_pos hcond, mk_data]
    rw [h1]
    exact h1
  · have h1 : translate_line s = String.mk (pySub _SORTED_KEYS_L forwardRepl s.data) := by
      simp only [translate_line, hrs]
      rw [if_neg hcond]
    rw [h1]
    have houtbf : ∀ ch ∈ pySub _SORTED_KEYS_L forwardRepl s.data,
        pyIsLineBreakChar ch = false := by
      intro ch hch
      simp only [pySub] at hch
      exact substAux_breakfree _ _ forwardRepl_breakfree s.data 0 false hbf ch hch
    simp only [translate_line, data_mk]
    rw [pyRstripNL_eq_self_of_breakfree houtbf]
    by_cases hcond2 : (isBlankLine (pySub _SORTED_KEYS_L forwardRepl s.data) ||
        isCommentLine (pySub _SORTED_KEYS_L forwardRepl s.data)) = true
    · rw [if_pos hcond2]
    · rw [if_neg hcond2]
      apply congrArg String.mk
      show pySub _SORTED_KEYS_L forwardRepl (pySub _SORTED_KEYS_L forwardRepl s.data) =
        pySub _SORTED_KEYS_L forwardRepl s.data
      simp only [pySub]
      exact substAux_idem _SORTED_KEYS_L forwardRepl
        (fun k hk => (key_facts hk).2.2.1)
        (fun k hk => (key_facts hk).2.1)
        (fun k hk => (key_facts hk).2.2.2.2.1)
        (fun m k hk hci => forwardRepl_alpha m k hk hci)
        (fun m k hk hci ch hch => forwardRepl_no_underscore m k hk hci ch hch)
        s.data.length s.data (Nat.le_refl _) false


/-! ## Claim theorems -/

/-- No two entries of the key list share a key (compared as strings). -/
def distinctKeysB : List String → Bool
  | [] => true
  | k :: rest => rest.all (fun k2 => ! strEq k k2) && distinctKeysB rest

/-- Claim C1 (amended): the reverse translator has no assignment-syntax
rewrite; the three move-class mnemonics MOVLW, MOVWF and MOVFF are
substituted generically by their readable names, like every other
mnemonic, operands left in place; in particular the spec's own example
input yields the generic substitution, not the claimed wreg form. -/
theorem C1_move_class_generic :
    reverse_translate "    MOVLW 0x05        ; load mask" "en" =
      "    move_literal_to_w 0x05        ; load mask" ∧
    reverse_translate "MOVWF PORTB, ACCESS" "en" = "move_w_to_f PORTB, ACCESS" ∧
    reverse_translate "MOVFF TEMP, PORTA" "en" = "move_f_to_f TEMP, PORTA" := by
  decide

/-- Claim C1 (counterexample): on the spec's example line the reverse
translator does not produce the claimed assignment syntax. -/
theorem C1_counterexample :
    reverse_translate "    MOVLW 0x05        ; load mask" "en" ≠
      "    wreg = 0x05        ; load mask" := by
  decide

/-- Claim C2 (divergence witness): the line is recognised as a
directive/preprocessor line by the reverse translator's own check and is
passed through unchanged in the reverse direction, but the forward
translator, which performs no directive check, rewrites the readable
name inside it. -/
theorem C2_directive_bug :
    isDirectiveLine ("#define no_operation NOP").data = true ∧
    reverse_translate "#define no_operation NOP" "en" = "#define no_operation NOP" ∧
    translate "#define no_operation NOP" = "#define NOP NOP" := by
  decide

/-- Claim C3 (amended): the merged forward table is built by Python dict
unpacking, a total operation with no error path: a readable name defined
by two merged namespaces would silently be overridden by the later one
(pyDictMerge is last-wins), and no ConfigError exists; on the actual
four tables all readable names are pairwise distinct, so nothing is
overridden. -/
theorem C3_merge_last_wins :
    pyDictMerge (pyDictMerge (pyDictMerge INSTRUCTION_MAP INSTRUCTION_MAP_SI)
      INSTRUCTION_MAP_PIC16) INSTRUCTION_MAP_PIC16_SI = INSTRUCTION_MAP_ALL ∧
    distinctKeysB (pyKeys INSTRUCTION_MAP_ALL) = true :=
  ⟨INSTRUCTION_MAP_ALL_eq_pyDictMerge, by decide⟩

/-- Claim C3 (counterexample): on two single-entry namespaces that define
the same readable name with different mnemonics, the merge construction
silently keeps the later entry and drops the earlier one instead of
failing. -/
theorem C3_counterexample :
    pyDictMerge [("clear_f", "CLRF")] [("clear_f", "QQQQ")] = [("clear_f", "QQQQ")] ∧
    lookupStr "clear_f"
      (pyDictMerge [("clear_f", "CLRF")] [("clear_f", "QQQQ")]) = some "QQQQ" := by
  decide

/-- Claim C4: for every pair (m, r) of the English reverse map with m not
one of the three move-class mnemonics, reverse-translating the forward
translation of the line consisting of the readable name r restores r. -/
theorem C4_roundtrip (m r : String) (hmem : (m, r) ∈ REVERSE_MAP_ALL_EN)
    (hm1 : m ≠ "MOVLW") (hm2 : m ≠ "MOVWF") (hm3 : m ≠ "MOVFF") :
    reverse_translate (translate r) "en" = r := by
  have hall : REVERSE_MAP_ALL_EN.all
      (fun p => strEq (reverse_translate (translate p.2) "en") p.2) = true := by
    decide
  have h2 := List.all_eq_true.mp hall (m, r) hmem
  exact strEq_iff.mp (by simpa using h2)

theorem C4_roundtrip_witness :
    ("NOP", "no_operation") ∈ REVERSE_MAP_ALL_EN ∧
    ("NOP" : String) ≠ "MOVLW" ∧ ("NOP" : String) ≠ "MOVWF" ∧
    ("NOP" : String) ≠ "MOVFF" ∧
    reverse_translate (translate "no_operation") "en" = "no_operation" :=
  ⟨by decide, by decide, by decide, by decide,
    C4_roundtrip "NOP" "no_operation" (by decide) (by decide) (by decide) (by decide)⟩

/-- Claim C5: the four table-read mnemonics map forward from, and reverse
back to, four pairwise distinct readable names, each to its own, with the
star and plus characters handled at the match boundaries. -/
theorem C5_table_read_distinct :
    translate "table_read" = "TBLRD*" ∧
    translate "table_read_post_increment" = "TBLRD*+" ∧
    translate "table_read_post_decrement" = "TBLRD*-" ∧
    translate "table_read_pre_increment" = "TBLRD+*" ∧
    reverse_translate "TBLRD*" "en" = "table_read" ∧
    reverse_translate "TBLRD*+" "en" = "table_read_post_increment" ∧
    reverse_translate "TBLRD*-" "en" = "table_read_post_decrement" ∧
    reverse_translate "TBLRD+*" "en" = "table_read_pre_increment" ∧
    (["table_read", "table_read_post_increment", "table_read_post_decrement",
      "table_read_pre_increment"] : List String).Pairwise (fun a b => a ≠ b) := by
  decide

/-- Claim C6: the shorter readable name add_literal_to_fsr is itself an
alternative of the matcher, yet a line formed of the longer compound
add_literal_to_fsr2_and_return followed by letter-free operands behind a
non-word boundary is rewritten by replacing the full compound token with
ADDULNK exactly once, the operands byte-identical: the shorter key never
fires inside the longer occurrence. -/
theorem C6_longest_match (ops : List Char)
    (hbf : ∀ ch ∈ ops, pyIsLineBreakChar ch = false)
    (hna : ∀ ch ∈ ops, pyIsAlphaChar ch = false)
    (hla : lookaheadOK ops = true) :
    ("add_literal_to_fsr" : String).data ∈ _SORTED_KEYS_L ∧
    translate (String.mk (("add_literal_to_fsr2_and_return" : String).data ++ ops)) =
      String.mk (("ADDULNK" : String).data ++ ops) := by
  refine ⟨by decide, ?_⟩
  have hline_bf : ∀ ch ∈
      (String.mk (("add_literal_to_fsr2_and_return" : String).data ++ ops)).data,
      pyIsLineBreakChar ch = false := by
    rw [data_mk]
    intro ch hch
    rcases List.mem_append.mp hch with h1 | h1
    · exact (by decide : ∀ ch ∈ ("add_literal_to_fsr2_and_return" : String).data,
        pyIsLineBreakChar ch = false) ch h1
    · exact hbf ch h1
  have hne : (String.mk (("add_literal_to_fsr2_and_return" : String).data ++ ops)).data
      ≠ [] := by
    rw [data_mk]
    intro h0
    have h1 := congrArg List.length h0
    rw [List.length_append] at h1
    have h2 : ("add_literal_to_fsr2_and_return" : String).data.length = 30 := by decide
    rw [h2] at h1
    simp at h1
  rw [translate_single hline_bf hne]
  exact translate_line_token "add_literal_to_fsr2_and_return" "ADDULNK" ops
    (by decide) hbf
    (substAux_inert_nonalpha _SORTED_KEYS_L forwardRepl
      (fun k hk => (key_facts hk).2.1) ops _ hna) hla

theorem C6_longest_match_witness :
    ((∀ ch ∈ [' ', '5'], pyIsLineBreakChar ch = false) ∧
     (∀ ch ∈ [' ', '5'], pyIsAlphaChar ch = false) ∧
     lookaheadOK [' ', '5'] = true) ∧
    ("add_literal_to_fsr" : String).data ∈ _SORTED_KEYS_L ∧
    translate (String.mk (("add_literal_to_fsr2_and_return" : String).data ++
      [' ', '5'])) = String.mk (("ADDULNK" : String).data ++ [' ', '5']) :=
  ⟨⟨by decide, by decide, by decide⟩,
    C6_longest_match [' ', '5'] (by decide) (by decide) (by decide)⟩

/-- Claim C7 (amended): when the input's last line is not empty, both
translators preserve line count, order and position exactly: the lines of
the output are the per-line translations of the input lines, joined by a
single newline (a trailing empty input line is dropped by the join, the
deviation shown in the counterexample). -/
theorem C7_line_map (s lang : String)
    (hlast : (pySplitlines s).getLast? ≠ some "") :
    pySplitlines (translate s) = (pySplitlines s).map translate_line ∧
    pySplitlines (reverse_translate s lang) =
      (pySplitlines s).map (fun l => reverse_translate_line l (revMapFor lang)) :=
  ⟨translate_lines_eq s hlast, reverse_translate_lines_eq s lang hlast⟩

theorem C7_line_map_witness :
    (pySplitlines "NOP\nRETURN").getLast? ≠ some "" ∧
    (pySplitlines (translate "NOP\nRETURN") =
      (pySplitlines "NOP\nRETURN").map translate_line ∧
     pySplitlines (reverse_translate "NOP\nRETURN" "en") =
      (pySplitlines "NOP\nRETURN").map
        (fun l => reverse_translate_line l (revMapFor "en"))) :=
  ⟨by decide, C7_line_map "NOP\nRETURN" "en" (by decide)⟩

/-- Claim C7 (counterexample): the input has two lines, the second empty;
the forward translation has one line, so the line count is not preserved. -/
theorem C7_counterexample :
    pySplitlines "NOP\n\n" = ["NOP", ""] ∧
    pySplitlines (translate "NOP\n\n") = ["NOP"] := by
  decide

/-- Claim C8 (amended): the forward translator changes only matched
readable-name tokens.  For a readable name r that the merged forward
table maps to v, and any operand text behind a non-word boundary at
which no alternative of the matcher matches at any position — which
covers real operands, punctuation, whitespace and inline comments after
the semicolon, since every readable name contains an underscore —
translating the line r followed by that text replaces exactly r by v and
leaves every operand byte identical and in the same relative position.
Operand text that does contain a whole-token occurrence of a readable
name is itself replaced, the deviation shown in the counterexample. -/
theorem C8_frame (r v : String) (ops : List Char)
    (hlook : lookupStr r INSTRUCTION_MAP_ALL = some v)
    (hbf : ∀ ch ∈ ops, pyIsLineBreakChar ch = false)
    (hno : ∀ n, n ≤ ops.length → findKey _SORTED_KEYS_L (ops.drop n) = none)
    (hla : lookaheadOK ops = true) :
    translate (String.mk (r.data ++ ops)) = String.mk (v.data ++ ops) := by
  have hmem := lookupStr_mem hlook
  have hrk : r.data ∈ _SORTED_KEYS_L := by
    apply List.mem_map.mpr
    refine ⟨r, ?_, rfl⟩
    exact mem_pySortLenDesc.mpr (List.mem_map.mpr ⟨(r, v), hmem, rfl⟩)
  have kf := key_facts hrk
  have hline_bf : ∀ ch ∈ (String.mk (r.data ++ ops)).data,
      pyIsLineBreakChar ch = false := by
    rw [data_mk]
    intro ch hch
    rcases List.mem_append.mp hch with h1 | h1
    · exact kf.2.2.2.2.2.2 ch h1
    · exact hbf ch h1
  have hne : (String.mk (r.data ++ ops)).data ≠ [] := by
    rw [data_mk]
    intro h0
    obtain ⟨c, cs, hccs⟩ := List.exists_cons_of_ne_nil kf.1
    rw [hccs] at h0
    exact List.cons_ne_nil c (cs ++ ops) h0
  rw [translate_single hline_bf hne]
  exact translate_line_token r v ops hlook hbf
    (substAux_id_of_no_match _SORTED_KEYS_L forwardRepl ops
      (lastW r.data false) hno) hla

theorem C8_frame_witness :
    lookupStr "no_operation" INSTRUCTION_MAP_ALL = some "NOP" ∧
    (∀ ch ∈ (" PORTB, ACCESS ; load mask" : String).data,
      pyIsLineBreakChar ch = false) ∧
    (∀ n, n ≤ (" PORTB, ACCESS ; load mask" : String).data.length →
      findKey _SORTED_KEYS_L ((" PORTB, ACCESS ; load mask" : String).data.drop n) =
        none) ∧
    lookaheadOK (" PORTB, ACCESS ; load mask" : String).data = true ∧
    translate (String.mk (("no_operation" : String).data ++
      (" PORTB, ACCESS ; load mask" : String).data)) =
      String.mk (("NOP" : String).data ++
        (" PORTB, ACCESS ; load mask" : String).data) :=
  ⟨by decide, by decide, by decide, by decide,
    C8_frame "no_operation" "NOP" (" PORTB, ACCESS ; load mask" : String).data
      (by decide) (by decide) (by decide) (by decide)⟩

/-- Claim C8 (counterexample): operands are not arbitrary: an operand
that is itself a whole-token occurrence of a readable name is replaced
too, so the operands of the line clear_f no_operation do not appear
byte-identical in the output, which is CLRF NOP. -/
theorem C8_counterexample :
    translate (String.mk (("clear_f" : String).data ++
      (" no_operation" : String).data)) ≠
      String.mk (("CLRF" : String).data ++ (" no_operation" : String).data) ∧
    translate (String.mk (("clear_f" : String).data ++
      (" no_operation" : String).data)) =
      String.mk (("CLRF" : String).data ++ (" NOP" : String).data) := by
  decide

/-- Claim C9 (amended): the forward translator is idempotent on every
input whose last line is not empty: a second pass finds nothing to
replace, since emitted mnemonics carry no underscore while every
readable-name alternative contains one. -/
theorem C9_idempotent (s : String)
    (hlast : (pySplitlines s).getLast? ≠ some "") :
    translate (translate s) = translate s := by
  have h1 : pySplitlines (translate s) = (pySplitlines s).map translate_line :=
    translate_lines_eq s hlast
  have h2 : translate (translate s) =
      pyJoinNL (((pySplitlines s).map translate_line).map translate_line) := by
    rw [show translate (translate s) =
      pyJoinNL ((pySplitlines (translate s)).map translate_line) from rfl, h1]
  rw [h2, List.map_map]
  have h3 : (pySplitlines s).map (translate_line ∘ translate_line) =
      (pySplitlines s).map translate_line :=
    List.map_congr_left (fun l hl => translate_line_idem (pySplitlines_breakfree hl))
  rw [h3]
  rfl

theorem C9_idempotent_witness :
    (pySplitlines "no_operation").getLast? ≠ some "" ∧
    translate (translate "no_operation") = translate "no_operation" :=
  ⟨by decide, C9_idempotent "no_operation" (by decide)⟩

/-- Claim C9 (counterexample): an input with a trailing empty line is not
translated idempotently: the first pass drops the trailing empty line's
newline, so a second pass produces a different (shorter) text. -/
theorem C9_counterexample :
    translate (translate "NOP\n\n") ≠ translate "NOP\n\n" := by
  decide

/-- Claim C10: every lang value other than the exact string si selects
the English reverse map, so reverse translation with any such lang
coincides with English reverse translation; no unknown-language error
exists. -/
theorem C10_lang_fallback (s lang : String) (h : lang ≠ "si") :
    reverse_translate s lang = reverse_translate s "en" := by
  have h1 : revMapFor lang = REVERSE_MAP_ALL_EN := by
    unfold revMapFor
    rw [if_neg h]
  have h2 : revMapFor "en" = REVERSE_MAP_ALL_EN := by
    unfold revMapFor
    rw [if_neg (by decide)]
  unfold reverse_translate
  rw [h1, h2]

theorem C10_lang_fallback_witness :
    ("SI" : String) ≠ "si" ∧
    reverse_translate "NOP" "SI" = reverse_translate "NOP" "en" :=
  ⟨by decide, C10_lang_fallback "NOP" "SI" (by decide)⟩

end PicRasm
